import Mathlib

/-!
Verification development for the treemand CLI-hierarchy discovery engine.

The Go sources under `cli/treemand/discovery/help.go`, `cli/treemand/models/node.go`
and the merge strategy (`Merge`/`mergeInto`) are shallowly embedded below.
Text is modelled as `List Char`; Go's `regexp` patterns are embedded through a
small backtracking engine with leftmost-first (Perl-preference) semantics, which
coincides with Go's submatch semantics for the patterns used by the parser.
External process invocation (`exec.CommandContext` inside `runHelp`'s `run`
closure) is modelled by an oracle `run : List String → Str` mapping the argument
vector to the combined, not-yet-trimmed stdout+stderr text; timeouts, non-zero
exits and cancellations all surface as empty oracle output, exactly as they do
through `cmd.CombinedOutput` in the Go code.
-/

/-- Text as a list of characters (Go strings, decoded to runes). -/
abbrev Str := List Char

/-- Whitespace as recognized by Go's `unicode.IsSpace` (used by `strings.TrimSpace`). -/
def goIsSpace (c : Char) : Bool :=
  c = ' ' || ('\t' ≤ c && c ≤ '\r') ||
  c = '\u0085' || c = '\u00A0' || c = '\u1680' ||
  ('\u2000' ≤ c && c ≤ '\u200A') || c = '\u2028' || c = '\u2029' ||
  c = '\u202F' || c = '\u205F' || c = '\u3000'

/-- Whitespace as recognized by the regexp class `\s` in Go's RE2: `[\t\n\f\r ]`. -/
def reIsSpace (c : Char) : Bool :=
  c = '\t' || c = '\n' || c = '\x0c' || c = '\r' || c = ' '

/-- Model of `strings.TrimSpace`: drop leading and trailing Unicode whitespace. -/
def trimSpace (s : Str) : Str :=
  ((s.dropWhile goIsSpace).reverse.dropWhile goIsSpace).reverse

/-- Model of `strings.ToLower` restricted to ASCII letters (all parser keywords are ASCII). -/
def toLowerStr (s : Str) : Str := s.map Char.toLower

/-- Model of `strings.ToUpper` restricted to ASCII letters. -/
def toUpperStr (s : Str) : Str := s.map Char.toUpper

/-- Does `s` start with `p`? (Go `strings.HasPrefix`.) -/
def startsWith (p s : Str) : Bool := p.isPrefixOf s

/-- Does `s` end with `p`? (Go `strings.HasSuffix`.) -/
def endsWith (p s : Str) : Bool := p.reverse.isPrefixOf s.reverse

/-- Model of Go `strings.TrimSuffix s p`. -/
def trimTrailing (s p : Str) : Str :=
  if endsWith p s then s.take (s.length - p.length) else s

/-- Model of Go `strings.TrimLeft s cutset`. -/
def trimLeftChars (s : Str) (cutset : Str) : Str := s.dropWhile (fun c => cutset.contains c)

/-- Model of Go `strings.TrimRight s cutset`. -/
def trimRightChars (s : Str) (cutset : Str) : Str :=
  (s.reverse.dropWhile (fun c => cutset.contains c)).reverse

/-- Model of Go `strings.Trim s cutset` (both sides). -/
def trimChars (s : Str) (cutset : Str) : Str :=
  trimRightChars (trimLeftChars s cutset) cutset

/-- Does `s` contain `sub` as a contiguous substring? (Go `strings.Contains`.) -/
def containsSub (s sub : Str) : Bool :=
  match s with
  | [] => sub.isEmpty
  | _ :: rest => sub.isPrefixOf s || containsSub rest sub

/-- First index (in characters) at which `sub` occurs in `s`, Go `strings.Index` (−1 as `none`). -/
def indexOfSub (s sub : Str) : Option Nat :=
  match s with
  | [] => if sub.isEmpty then some 0 else none
  | _ :: rest =>
      if sub.isPrefixOf s then some 0
      else (indexOfSub rest sub).map (· + 1)

/-- Does `s` contain any character of `chars`? (Go `strings.ContainsAny`.) -/
def containsAnyOf (s chars : Str) : Bool := s.any (fun c => chars.contains c)

/-- Split on newline characters, Go `strings.Split(text, "\n")`. -/
def splitLines (s : Str) : List Str :=
  match s with
  | [] => [[]]
  | '\n' :: rest => [] :: splitLines rest
  | c :: rest =>
      match splitLines rest with
      | [] => [[c]]
      | l :: ls => (c :: l) :: ls

/-- Byte length of a string under UTF-8, Go's `len` on a `string`. -/
def goByteLen (s : Str) : Nat := s.foldl (fun a c => a + c.utf8Size) 0

/-! ### A small backtracking regex engine

Regular expressions are embedded as syntax trees; every repetition occurring in
the Go patterns has a single-character-class body, so repetitions are restricted
to character classes. Matching is continuation-passing with Perl preference
order (alternation prefers the left branch, greedy repetition prefers longer,
lazy repetition prefers shorter), which reproduces Go's leftmost-first submatch
semantics for these patterns. -/

/-- Regex syntax. `rep p lo hi lz` is `p{lo,hi}` (no upper bound when `hi = none`),
lazy when `lz` is true. -/
inductive RE where
  | eps
  | eol
  | lit (cs : Str)
  | cls (p : Char → Bool)
  | seq (a b : RE)
  | alt (a b : RE)
  | opt (a : RE)
  | rep (p : Char → Bool) (lo : Nat) (hi : Option Nat) (lz : Bool)
  | group (i : Nat) (a : RE)

/-- Submatch captures: group index paired with the captured text. -/
abbrev Caps := List (Nat × Str)

/-- Length of the maximal prefix of `s` of characters satisfying `p`, capped at `bound`. -/
def maxRunLen (p : Char → Bool) (s : Str) (bound : Nat) : Nat :=
  min (s.takeWhile p).length bound

/-- Try consuming `lo + d` characters first, then down to `lo` (greedy preference). -/
def repTryDown {α : Type} (s : Str) (caps : Caps) (k : Str → Caps → Option α) (lo : Nat) :
    Nat → Option α
  | 0 => k (s.drop lo) caps
  | d + 1 => (k (s.drop (lo + d + 1)) caps) <|> repTryDown s caps k lo d

/-- Try consuming `lo` characters first, then up to `lo + d` (lazy preference). -/
def repTryUp {α : Type} (s : Str) (caps : Caps) (k : Str → Caps → Option α) :
    Nat → Nat → Option α
  | lo, 0 => k (s.drop lo) caps
  | lo, d + 1 => (k (s.drop lo) caps) <|> repTryUp s caps k (lo + 1) d

/-- Backtracking matcher in continuation-passing style. The continuation
receives the remaining input and the captures collected on the success path. -/
def reMatch {α : Type} : RE → Str → Caps → (Str → Caps → Option α) → Option α
  | .eps, s, caps, k => k s caps
  | .eol, s, caps, k => if s.isEmpty then k s caps else none
  | .lit cs, s, caps, k => if cs.isPrefixOf s then k (s.drop cs.length) caps else none
  | .cls p, s, caps, k =>
      match s with
      | [] => none
      | c :: rest => if p c then k rest caps else none
  | .seq a b, s, caps, k => reMatch a s caps (fun s1 c1 => reMatch b s1 c1 k)
  | .alt a b, s, caps, k => (reMatch a s caps k) <|> reMatch b s caps k
  | .opt a, s, caps, k => (reMatch a s caps k) <|> k s caps
  | .group i a, s, caps, k =>
      reMatch a s caps (fun s1 c1 => k s1 ((i, s.take (s.length - s1.length)) :: c1))
  | .rep p lo hi lz, s, caps, k =>
      let run := maxRunLen p s (match hi with | some h => h | none => s.length)
      if lo > run then none
      else if lz then repTryUp s caps k lo (run - lo)
      else repTryDown s caps k lo (run - lo)

/-- Match `r` anchored at the start of `s`; on success return the remaining
input and the captures. -/
def reMatchAt (r : RE) (s : Str) : Option (Str × Caps) :=
  reMatch r s [] (fun rest caps => some (rest, caps))

/-- Look up capture group `i`; unparticipating groups read as `""` as in Go. -/
def capGet (caps : Caps) (i : Nat) : Str :=
  match caps.lookup i with
  | some cs => cs
  | none => []

/-- Search for the leftmost match of `r` in `s`. Returns the text before the
match, the matched text, the text after it, and the captures. -/
def reSearch (r : RE) : Str → Option (Str × Str × Str × Caps)
  | [] =>
      match reMatchAt r [] with
      | some (rest, caps) => some ([], [], rest, caps)
      | none => none
  | c :: rest =>
      match reMatchAt r (c :: rest) with
      | some (after, caps) =>
          some ([], (c :: rest).take ((c :: rest).length - after.length), after, caps)
      | none =>
          match reSearch r rest with
          | some (pre, m, after, caps) => some (c :: pre, m, after, caps)
          | none => none

/-- First match of `r` in `s` as a string, Go `FindString` (`""` when no match). -/
def reFindFirst (r : RE) (s : Str) : Str :=
  match reSearch r s with
  | some (_, m, _, _) => m
  | none => []

/-- Does `r` match anywhere in `s`? (Go `MatchString`.) -/
def reHasMatch (r : RE) (s : Str) : Bool := (reSearch r s).isSome

/-- All non-overlapping matches of `r` in `s`, leftmost-first, with captures
(Go `FindAllStringSubmatch(s, -1)`); `fuel` bounds the number of matches. -/
def reFindAll (r : RE) (fuel : Nat) (s : Str) : List (Str × Caps) :=
  match fuel with
  | 0 => []
  | fuel + 1 =>
      match reSearch r s with
      | none => []
      | some (_, m, after, caps) =>
          if m.isEmpty then
            match after with
            | [] => [(m, caps)]
            | _ :: tl => (m, caps) :: reFindAll r fuel tl
          else (m, caps) :: reFindAll r fuel after

/-- Remove every match of `r` from `s` (Go `ReplaceAllString(s, "")`); `fuel`
bounds the number of removals. -/
def reDeleteAll (r : RE) (fuel : Nat) (s : Str) : Str :=
  match fuel with
  | 0 => s
  | fuel + 1 =>
      match reSearch r s with
      | none => s
      | some (pre, m, after, _) =>
          if m.isEmpty then
            match after with
            | [] => pre
            | c :: tl => pre ++ c :: reDeleteAll r fuel tl
          else pre ++ reDeleteAll r fuel after

namespace Treemand

/-! ### Data model (`models/node.go`)

Field names follow the Go structs. The `virtualNode` field corresponds to the
`Virtual` field that `help.go` sets on synthesized section children and that the
TUI reads (`model.go`); the checked-in revision of `node.go` predates it. -/

/-- Go `models.Flag`. -/
structure Flag where
  name : Str
  shortName : Str := []
  valueType : Str := []
  description : Str := []
  required : Bool := false
deriving Repr, DecidableEq

/-- Go `models.Positional`. -/
structure Positional where
  name : Str
  description : Str := []
  required : Bool
  variadic : Bool := false
deriving Repr, DecidableEq

/-- Go `models.Node` (pointer structure flattened into a tree value; the heap
model used for `Merge` is introduced separately below). -/
inductive Node where
  | mk (name : Str) (fullPath : List Str) (description : Str)
       (flags : List Flag) (positionals : List Positional)
       (children : List Node) (helpText : Str) (discovered : Bool)
       (virtualNode : Bool)

def Node.name : Node → Str | .mk n _ _ _ _ _ _ _ _ => n

def Node.fullPath : Node → List Str | .mk _ fp _ _ _ _ _ _ _ => fp

def Node.description : Node → Str | .mk _ _ d _ _ _ _ _ _ => d

def Node.flags : Node → List Flag | .mk _ _ _ fl _ _ _ _ _ => fl

def Node.positionals : Node → List Positional | .mk _ _ _ _ ps _ _ _ _ => ps

def Node.children : Node → List Node | .mk _ _ _ _ _ cs _ _ _ => cs

def Node.helpText : Node → Str | .mk _ _ _ _ _ _ ht _ _ => ht

def Node.discovered : Node → Bool | .mk _ _ _ _ _ _ _ d _ => d

def Node.virtualNode : Node → Bool | .mk _ _ _ _ _ _ _ _ v => v

/-- Go `discovery.ParsedSection`. -/
structure ParsedSection where
  name : Str
  flags : List Flag
deriving Repr, DecidableEq

/-- Go `discovery.ParsedHelp`. -/
structure ParsedHelp where
  description : Str := []
  flags : List Flag := []
  positionals : List Positional := []
  subcommands : List Str := []
  docsURL : Str := []
  sections : List ParsedSection := []
deriving Repr, DecidableEq

/-! ### Section labels and keyword table (`help.go`) -/

def secNone : Str := []

def secFlags : Str := "flags".data

def secCommands : Str := "commands".data

def secUsage : Str := "usage".data

def secDesc : Str := "description".data

def secExamples : Str := "examples".data

def secAliases : Str := "aliases".data

/-- The `sectionHeaders` map, listed in the order of the Go map literal. Go map
iteration order is randomized, so functions that range over the map take the
iteration order as an explicit parameter (any permutation of this list); the
literal order serves as the canonical instantiation. -/
def sectionHeadersList : List (Str × Str) := [
  ("available commands".data, secCommands),
  ("available command".data, secCommands),
  ("available services".data, secCommands),
  ("available service".data, secCommands),
  ("management commands".data, secCommands),
  ("management command".data, secCommands),
  ("commands".data, secCommands),
  ("subcommands".data, secCommands),
  ("flags".data, secFlags),
  ("options".data, secFlags),
  ("global flags".data, secFlags),
  ("global options".data, secFlags),
  ("optional arguments".data, secFlags),
  ("arguments".data, secFlags),
  ("usage".data, secUsage),
  ("use".data, secUsage),
  ("description".data, secDesc),
  ("examples".data, secExamples),
  ("example".data, secExamples),
  ("aliases".data, secAliases)]

/-- Words that look like subcommands but are skipped (`skipSubcmdWords`). -/
def skipSubcmdWords : List Str :=
  ["true".data, "false".data, "none".data, "all".data, "on".data,
   "off".data, "yes".data, "no".data, "default".data]

/-- All-caps usage-line placeholder words (`positionalPlaceholders`). -/
def positionalPlaceholders : List Str :=
  ["OPTION".data, "OPTIONS".data, "OPTS".data, "OPT".data,
   "FLAG".data, "FLAGS".data, "ARG".data, "ARGS".data,
   "ARGUMENTS".data, "PARAMS".data, "PARAMETERS".data,
   "SHORT-OPTION".data, "LONG-OPTION".data]

/-! ### Character classes and the embedded regexes -/

def isAsciiAlpha (c : Char) : Bool := ('A' ≤ c && c ≤ 'Z') || ('a' ≤ c && c ≤ 'z')

def isAsciiDigit (c : Char) : Bool := '0' ≤ c && c ≤ '9'

def isAsciiAlnum (c : Char) : Bool := isAsciiAlpha c || isAsciiDigit c

/-- The class `[A-Za-z0-9_-]` used in flag names. -/
def isFlagWord (c : Char) : Bool := isAsciiAlnum c || c = '_' || c = '-'

def isLowerAl (c : Char) : Bool := 'a' ≤ c && c ≤ 'z'

/-- The class `[a-z0-9_-]` used in subcommand names. -/
def isLowWord (c : Char) : Bool := isLowerAl c || isAsciiDigit c || c = '_' || c = '-'

/-- The class `[A-Za-z0-9_.-]` used in positional names. -/
def isArgWord (c : Char) : Bool := isAsciiAlnum c || c = '_' || c = '.' || c = '-'

def isUpperAl (c : Char) : Bool := 'A' ≤ c && c ≤ 'Z'

/-- Go: ``awsBulletRe = `^\s{2,}\+o\s+([a-z][a-z0-9_-]*)$``. -/
def awsBulletRe : RE :=
  .seq (.rep reIsSpace 2 none false)
    (.seq (.lit ['+', 'o'])
      (.seq (.rep reIsSpace 1 none false)
        (.seq (.group 1 (.seq (.cls isLowerAl) (.rep isLowWord 0 none false))) .eol)))

/-- Go: ``awsFlagRe = `^\s{2,}(--[A-Za-z][A-Za-z0-9_-]*)\s+\(([^)]+)\)\s*$``. -/
def awsFlagRe : RE :=
  .seq (.rep reIsSpace 2 none false)
    (.seq (.group 1 (.seq (.lit ['-', '-']) (.seq (.cls isAsciiAlpha) (.rep isFlagWord 0 none false))))
      (.seq (.rep reIsSpace 1 none false)
        (.seq (.lit ['('])
          (.seq (.group 2 (.rep (fun c => c ≠ ')') 1 none false))
            (.seq (.lit [')']) (.seq (.rep reIsSpace 0 none false) .eol))))))

/-- Go `longFlagRe`:
``^\s{0,8}(?:(-[A-Za-z0-9])(?:,\s*|\s+))?(--[A-Za-z][A-Za-z0-9_-]*)(?:(?:\[=[A-Za-z][A-Za-z0-9_-]*\])|(?:[= ](?:<([^>]+)>|\[([^\]]+)\]|([A-Za-z][A-Za-z0-9_-]*))))?(?:\s+(.*))?$``. -/
def longFlagRe : RE :=
  .seq (.rep reIsSpace 0 (some 8) false)
    (.seq (.opt (.seq (.group 1 (.seq (.lit ['-']) (.cls isAsciiAlnum)))
                  (.alt (.seq (.lit [',']) (.rep reIsSpace 0 none false))
                        (.rep reIsSpace 1 none false))))
      (.seq (.group 2 (.seq (.lit ['-', '-']) (.seq (.cls isAsciiAlpha) (.rep isFlagWord 0 none false))))
        (.seq (.opt (.alt
                (.seq (.lit ['[', '=']) (.seq (.cls isAsciiAlpha) (.seq (.rep isFlagWord 0 none false) (.lit [']']))))
                (.seq (.cls (fun c => c = '=' || c = ' '))
                  (.alt (.seq (.lit ['<']) (.seq (.group 3 (.rep (fun c => c ≠ '>') 1 none false)) (.lit ['>'])))
                    (.alt (.seq (.lit ['[']) (.seq (.group 4 (.rep (fun c => c ≠ ']') 1 none false)) (.lit [']'])))
                          (.group 5 (.seq (.cls isAsciiAlpha) (.rep isFlagWord 0 none false))))))))
          (.seq (.opt (.seq (.rep reIsSpace 1 none false)
                        (.group 6 (.rep (fun c => c ≠ '\n') 0 none false))))
            .eol))))

/-- Go `shortOnlyFlagRe`:
``^\s{2,8}(-[A-Za-z0-9])(?:\s+(?:<([^>]+)>|([A-Za-z][A-Za-z0-9_-]*)))?(?:\s{2,}(.*))?$``. -/
def shortOnlyFlagRe : RE :=
  .seq (.rep reIsSpace 2 (some 8) false)
    (.seq (.group 1 (.seq (.lit ['-']) (.cls isAsciiAlnum)))
      (.seq (.opt (.seq (.rep reIsSpace 1 none false)
                    (.alt (.seq (.lit ['<']) (.seq (.group 2 (.rep (fun c => c ≠ '>') 1 none false)) (.lit ['>'])))
                          (.group 3 (.seq (.cls isAsciiAlpha) (.rep isFlagWord 0 none false))))))
        (.seq (.opt (.seq (.rep reIsSpace 2 none false)
                      (.group 4 (.rep (fun c => c ≠ '\n') 0 none false))))
          .eol)))

/-- Go: ``subcmdRe = `^\s{2,8}([a-z][a-z0-9_-]*)(?:.*?\s{2,}(.+))?$``. -/
def subcmdRe : RE :=
  .seq (.rep reIsSpace 2 (some 8) false)
    (.seq (.group 1 (.seq (.cls isLowerAl) (.rep isLowWord 0 none false)))
      (.seq (.opt (.seq (.rep (fun c => c ≠ '\n') 0 none true)
                    (.seq (.rep reIsSpace 2 none false)
                      (.group 2 (.rep (fun c => c ≠ '\n') 1 none false)))))
        .eol))

/-- Go: ``reqArgRe = `<([A-Za-z][A-Za-z0-9_.-]*)>``. -/
def reqArgRe : RE :=
  .seq (.lit ['<'])
    (.seq (.group 1 (.seq (.cls isAsciiAlpha) (.rep isArgWord 0 none false))) (.lit ['>']))

/-- Go: ``optArgRe = `\[([A-Za-z][A-Za-z0-9_.-]*)(?:\.{3})?\]``. -/
def optArgRe : RE :=
  .seq (.lit ['['])
    (.seq (.group 1 (.seq (.cls isAsciiAlpha) (.rep isArgWord 0 none false)))
      (.seq (.opt (.lit ['.', '.', '.'])) (.lit [']'])))

/-- Go: ``urlRe = `https?://[^\s]+``. -/
def urlRe : RE :=
  .seq (.lit ['h', 't', 't', 'p'])
    (.seq (.opt (.lit ['s']))
      (.seq (.lit [':', '/', '/']) (.rep (fun c => !reIsSpace c) 1 none false)))

/-- Go: ``ansiRe = `\x1b\[[0-9;]*[mGKHF]``. -/
def ansiRe : RE :=
  .seq (.lit ['\x1b', '['])
    (.seq (.rep (fun c => isAsciiDigit c || c = ';') 0 none false)
      (.cls (fun c => c = 'm' || c = 'G' || c = 'K' || c = 'H' || c = 'F')))

/-- Go: ``buildMarkerRe = `^[A-Z]\s{2,}``. -/
def buildMarkerRe : RE := .seq (.cls isUpperAl) (.rep reIsSpace 2 none false)

/-- Go `stripANSI`: `ansiRe.ReplaceAllString(s, "")`. -/
def stripANSI (s : Str) : Str := reDeleteAll ansiRe (s.length + 1) s

/-- Go `stripBuildMarker`: remove a leading build-availability marker, trim.
`buildMarkerRe` is `^`-anchored, so `ReplaceAllString` can only remove a prefix. -/
def stripBuildMarker (s : Str) : Str :=
  trimSpace (match reMatchAt buildMarkerRe s with
             | some (rest, _) => rest
             | none => s)

/-- Go `truncatedHelpRe.MatchString`: the pattern is a case-insensitive
alternation of three literals, i.e. substring search on the lowered text. -/
def truncatedHelpMatch (s : Str) : Bool :=
  let l := toLowerStr s
  containsSub l "--help all".data || containsSub l "--help <category>".data ||
    containsSub l "not the full help".data

/-- Go `FindString` for a `^`-anchored pattern: the matched prefix, or `""`. -/
def reFindAnchored (r : RE) (s : Str) : Str :=
  match reMatchAt r s with
  | some (rest, _) => s.take (s.length - rest.length)
  | none => []

/-! ### The section parser (`ParseHelpOutput` and helpers) -/

/-- Go `detectSection`. The exact-match map lookup is order-independent; the
prefix/suffix fallback ranges over the map, so it takes the iteration order
`ord` (a permutation of `sectionHeadersList`) explicitly. -/
def detectSectionOrd (ord : List (Str × Str)) (lower : Str) : Str :=
  let candidate := trimTrailing (trimSpace lower) [':']
  match sectionHeadersList.lookup candidate with
  | some s => s
  | none =>
      if goByteLen candidate ≤ 30 then
        match ord.find? (fun e => startsWith e.1 candidate || endsWith e.1 candidate) with
        | some e => e.2
        | none => secNone
      else secNone

/-- Go `parseFlag`: try `longFlagRe`, then `shortOnlyFlagRe`. -/
def parseFlag (line : Str) : Option Flag :=
  match reMatchAt longFlagRe line with
  | some (_, caps) =>
      let m3 := capGet caps 3
      let m4 := capGet caps 4
      let m5 := capGet caps 5
      some { name := capGet caps 2,
             shortName := trimLeftChars (capGet caps 1) ['-'],
             valueType :=
               if m3 ≠ [] then m3 else if m4 ≠ [] then m4
               else if m5 ≠ [] then m5 else "bool".data,
             description := stripBuildMarker (capGet caps 6) }
  | none =>
      match reMatchAt shortOnlyFlagRe line with
      | some (_, caps) =>
          let m2 := capGet caps 2
          let m3 := capGet caps 3
          some { name := capGet caps 1,
                 shortName := trimLeftChars (capGet caps 1) ['-'],
                 valueType := if m2 ≠ [] then m2 else if m3 ≠ [] then m3 else "bool".data,
                 description := stripBuildMarker (capGet caps 4) }
      | none => none

/-- One scan of `parsePositionals`: fold the matches of one regex, sharing the
`seen` set between the required and the optional scan as the Go code does. -/
def posScan (ms : List (Str × Caps)) (required : Bool) :
    List Str × List Positional → List Str × List Positional :=
  fun start =>
    ms.foldl
      (fun acc m =>
        let name := capGet m.2 1
        let canonical := trimRightChars (toUpperStr name) ['.', '+']
        if ¬ acc.1.contains name ∧ ¬ containsAnyOf name ['=', ' '] ∧
           ¬ positionalPlaceholders.contains canonical then
          (name :: acc.1, acc.2 ++ [{ name := name, required := required }])
        else acc)
      start

/-- Go `parsePositionals`: extract positional arguments from one usage line. -/
def parsePositionals (line : Str) : List Positional :=
  let searchLine :=
    match indexOfSub (toLowerStr line) "usage:".data with
    | some idx => line.drop (idx + 6)
    | none => line
  let reqMs := reFindAll reqArgRe (searchLine.length + 1) searchLine
  let optMs := reFindAll optArgRe (searchLine.length + 1) searchLine
  (posScan optMs false (posScan reqMs true ([], []))).2

/-- Go `dedupePositionals`. -/
def dedupePositionals (ps : List Positional) : List Positional :=
  (ps.foldl
    (fun acc p => if acc.1.contains p.name then acc else (p.name :: acc.1, acc.2 ++ [p]))
    (([], []) : List Str × List Positional)).2

/-- Parser state threaded through the line loop of `ParseHelpOutput`.
`sec` is the `section` variable; `seenSubs`/`seenFlags` model the two
deduplication maps; `pendingFlag` holds a partially-parsed AWS-style flag. -/
structure PHState where
  result : ParsedHelp
  sec : Str
  seenSubs : List Str
  seenFlags : List Str
  usageLines : List Str
  currentSectionName : Str
  pendingFlag : Option Flag
deriving Repr

/-- Append a flag to the last accumulated section (`result.Sections[n-1]`). -/
def appendToLast (secs : List ParsedSection) (f : Flag) : List ParsedSection :=
  match secs with
  | [] => []
  | [s] => [{ s with flags := s.flags ++ [f] }]
  | s :: rest => s :: appendToLast rest f

/-- Name of the last accumulated section, `""` when there is none. -/
def lastSecName (secs : List ParsedSection) : Str :=
  match secs.getLast? with
  | some s => s.name
  | none => []

/-- Go `addFlag` closure inside `ParseHelpOutput`: skip names already seen,
otherwise append to `result.Flags` and, within a named section, to the
corresponding `ParsedSection`. -/
def addFlag (st : PHState) (f : Flag) : PHState :=
  if st.seenFlags.contains f.name then st
  else
    let newFlags := st.result.flags ++ [f]
    let newSeen := f.name :: st.seenFlags
    if st.currentSectionName ≠ [] then
      let secs0 := st.result.sections
      let secs1 :=
        if secs0.length = 0 ∨ lastSecName secs0 ≠ st.currentSectionName then
          secs0 ++ [{ name := st.currentSectionName, flags := [] }]
        else secs0
      { st with seenFlags := newSeen,
                result := { st.result with flags := newFlags, sections := appendToLast secs1 f } }
    else
      { st with seenFlags := newSeen, result := { st.result with flags := newFlags } }

/-- Record a subcommand name, skipping duplicates and stop-words. -/
def phAddSub (st : PHState) (name : Str) : PHState :=
  if ¬ st.seenSubs.contains name ∧ ¬ skipSubcmdWords.contains name then
    { st with seenSubs := name :: st.seenSubs,
              result := { st.result with subcommands := st.result.subcommands ++ [name] } }
  else st

/-- Flush a pending AWS-style flag when a non-empty line is encountered
(lines 419–429 of `help.go`). -/
def phFlush (st : PHState) (trimmed rawLine : Str) : PHState :=
  match st.pendingFlag with
  | none => st
  | some pf =>
      if trimmed = [] then st
      else
        let pf :=
          if ¬ startsWith ['-', '-'] trimmed ∧ reFindAnchored awsFlagRe rawLine = [] then
            { pf with description := trimmed }
          else pf
        let st1 := if st.seenFlags.contains pf.name then st else addFlag st pf
        { st1 with pendingFlag := none }

/-- The state-reset block (lines 447–456 of `help.go`): an unindented,
non-header, non-footer line after the first few lines resets the section. -/
def phReset (ord : List (Str × Str)) (st : PHState) (i : Nat) (rawLine trimmed lower : Str) :
    PHState :=
  if i > 4 ∧ trimmed ≠ [] ∧ ¬ startsWith [' '] rawLine ∧ ¬ startsWith ['\t'] rawLine ∧
     st.sec ≠ secNone ∧ ¬ endsWith [':'] lower ∧ detectSectionOrd ord lower = secNone then
    if ¬ endsWith ['(', ')'] trimmed then { st with sec := secNone, currentSectionName := [] }
    else st
  else st

/-- The description-capture block (lines 458–468). -/
def phDescr (st : PHState) (i : Nat) (trimmed lower : Str) : PHState :=
  if st.result.description = [] ∧ i < 10 ∧ trimmed ≠ [] ∧
     ¬ startsWith ['-'] trimmed ∧ ¬ startsWith "usage".data lower ∧
     ¬ startsWith "use ".data lower ∧ ¬ startsWith "name".data lower ∧
     ¬ startsWith "synopsis".data lower ∧
     lower ≠ "name".data ∧ lower ≠ "synopsis".data ∧ lower ≠ "description".data then
    { st with result := { st.result with description := trimmed } }
  else st

/-- The usage-line collection block (lines 470–475). -/
def phUsage (st : PHState) (rawLine trimmed lower : Str) : PHState :=
  if startsWith "usage:".data lower ∨ startsWith "use:".data lower ∨
     lower = "synopsis".data ∨ (st.sec = secUsage ∧ trimmed ≠ []) then
    { st with usageLines := st.usageLines ++ [rawLine] }
  else st

/-- The docs-URL block (lines 477–482). -/
def phDocsURL (st : PHState) (rawLine : Str) : PHState :=
  if st.result.docsURL = [] then
    let m := reFindFirst urlRe rawLine
    if m ≠ [] then { st with result := { st.result with docsURL := m } } else st
  else st

/-- The per-section switch (lines 484–528). -/
def phSwitch (st : PHState) (rawLine : Str) : PHState :=
  if st.sec = secFlags then
    match reMatchAt awsFlagRe rawLine with
    | some (_, caps) =>
        let vt := capGet caps 2
        { st with pendingFlag := some { name := capGet caps 1,
                                        valueType := if vt = "boolean".data then "bool".data else vt } }
    | none =>
        match parseFlag rawLine with
        | some f => addFlag st f
        | none => st
  else if st.sec = secCommands then
    match reMatchAt awsBulletRe rawLine with
    | some (_, caps) => phAddSub st (capGet caps 1)
    | none =>
        match reMatchAt subcmdRe rawLine with
        | some (_, caps) => phAddSub st (capGet caps 1)
        | none => st
  else if st.sec = secNone ∨ st.sec = secUsage then
    let st1 :=
      match parseFlag rawLine with
      | some f => addFlag st f
      | none => st
    match reMatchAt subcmdRe rawLine with
    | some (_, caps) => if capGet caps 2 ≠ [] then phAddSub st1 (capGet caps 1) else st1
    | none => st1
  else st

/-- The part of the loop body after the section-header check: state reset,
description capture, usage collection, docs URL, then the per-section switch,
in the statement order of the Go loop. -/
def phBody (ord : List (Str × Str)) (st : PHState) (i : Nat) (rawLine trimmed lower : Str) :
    PHState :=
  phSwitch (phDocsURL (phUsage (phDescr (phReset ord st i rawLine trimmed lower) i trimmed lower)
    rawLine trimmed lower) rawLine) rawLine

/-- One iteration of the line loop: pending flush, then the section-header
check (whose `continue` is modelled by returning early), then `phBody`. -/
def phStep (ord : List (Str × Str)) (st : PHState) (i : Nat) (rawLine : Str) : PHState :=
  let trimmed := trimSpace rawLine
  let lower := toLowerStr trimmed
  let st := phFlush st trimmed rawLine
  let secDet := detectSectionOrd ord lower
  if secDet ≠ secNone then
    if secDet = secFlags then
      { st with sec := secDet, currentSectionName := trimTrailing trimmed [':'] }
    else { st with sec := secDet, currentSectionName := [] }
  else phBody ord st i rawLine trimmed lower

/-- Initial parser state. -/
def phInit : PHState :=
  { result := {}, sec := secNone, seenSubs := [], seenFlags := [],
    usageLines := [], currentSectionName := [], pendingFlag := none }

/-- Go `ParseHelpOutput`, parameterized by the map iteration order `ord` used
in `detectSection`'s fallback loop. -/
def ParseHelpOutputOrd (ord : List (Str × Str)) (text : Str) : ParsedHelp :=
  let stripped := stripANSI text
  let lines := splitLines stripped
  let st := lines.enum.foldl (fun st p => phStep ord st p.1 p.2) phInit
  let st :=
    match st.pendingFlag with
    | some pf => addFlag st pf
    | none => st
  let res := st.result
  let res := { res with sections := res.sections.filter (fun s => s.flags.length ≥ 2) }
  let allPos := res.positionals ++ st.usageLines.foldl (fun acc ul => acc ++ parsePositionals ul) []
  { res with positionals := dedupePositionals allPos }

/-- Go `ParseHelpOutput` at the canonical iteration order. -/
def ParseHelpOutput (text : Str) : ParsedHelp :=
  ParseHelpOutputOrd sectionHeadersList text

/-! ### The crawler (`HelpDiscoverer`, `runHelp`, `discover`)

A single external process invocation (the `run` closure inside `runHelp`,
wrapping `exec.CommandContext` + `CombinedOutput`) is modelled by an oracle
`run : List Str → Str` from the argument vector to the raw combined output;
`runHelp` trims it exactly where the Go closure does. A timeout, non-zero exit
with no output, or cancellation is an oracle returning `""`. The recursion of
`discover` is bounded by `maxDepth`; it is embedded with a structural `fuel`
parameter so the definition computes, with `Discover` supplying fuel that the
`depth < MaxDepth` guard can never exhaust. -/

/-- Go `HelpDiscoverer`. `Timeout` is in nanoseconds (`time.Duration`). -/
structure HelpDiscoverer where
  MaxDepth : Int
  Timeout : Int
deriving Repr, DecidableEq

/-- Go `time.Second` (nanoseconds). -/
def timeSecond : Int := 1000000000

/-- Go `NewHelpDiscoverer`. -/
def NewHelpDiscoverer (maxDepth : Int) : HelpDiscoverer :=
  let md := if maxDepth ≤ 0 then 3 else maxDepth
  { MaxDepth := md, Timeout := 5 * timeSecond }

/-- Go `lastElement` (`help.go`). -/
def lastElement (path : List Str) : Str :=
  match path.getLast? with
  | some s => s
  | none => []

/-- The `for _, flag := range []string{"--help", "-h"}` loop of `runHelp`:
returns an early result (the preferred expanded text) or the accumulated
`firstOut`. -/
def helpFlagTries (run : List Str → Str) (args : List Str) :
    List Str → Str → Option Str × Str
  | [], firstOut => (none, firstOut)
  | flag :: rest, firstOut =>
      let s := trimSpace (run (args ++ [flag]))
      if s = [] then helpFlagTries run args rest firstOut
      else
        let retry :=
          if truncatedHelpMatch s then
            let s2 := trimSpace (run (args ++ ["--help".data, "all".data]))
            if s2 ≠ [] then some s2 else none
          else none
        match retry with
        | some s2 => (some s2, firstOut)
        | none => helpFlagTries run args rest (if firstOut = [] then s else firstOut)

/-- Go `runHelp`: `--help` then `-h`, truncation retry with `--help all`,
positional `help` fallback with the AWS boilerplate exclusion; `none` models
the `"no help output from %s"` error. -/
def runHelp (run : List Str → Str) (args : List Str) : Option Str :=
  match helpFlagTries run args ["--help".data, "-h".data] [] with
  | (some s2, _) => some s2
  | (none, firstOut) =>
      let firstOut :=
        if firstOut = [] then
          let s := trimSpace (run (args ++ ["help".data]))
          if s ≠ [] ∧ ¬ containsSub (toLowerStr s) "aws help\n  aws".data then s
          else firstOut
        else firstOut
      if firstOut ≠ [] then some firstOut else none

/-- The description `fmt.Sprintf("(could not get help: %v)", err)` with
`runHelp`'s only error, `"no help output from %s"` at `cliName`. -/
def couldNotGetHelp (cliName : Str) : Str :=
  "(could not get help: no help output from ".data ++ cliName ++ ")".data

/-- Go `sectionSlug`. -/
def sectionSlug (name : Str) : Str :=
  let lowered := toLowerStr name
  let acc := lowered.foldl
    (fun (acc : Str × Bool) r =>
      if ('a' ≤ r && r ≤ 'z') || ('0' ≤ r && r ≤ '9') then (r :: acc.1, false)
      else if ¬ acc.2 then ('-' :: acc.1, true)
      else acc)
    (([], false) : Str × Bool)
  trimChars acc.1.reverse ['-']

/-- Go `(*HelpDiscoverer).discover`, with a structural fuel parameter bounding
the recursion (the `depth < MaxDepth` guard decrements it; `Discover` passes
`MaxDepth.toNat + 1`, which the guard can never exhaust, so the fuel-0 branch
is unreachable from `Discover`). The bounded-concurrency fan-out writes each
child into its own pre-indexed slot, so its sequential semantics is the
in-order `map` below; schedule-independence is proved separately. -/
def discover (run : List Str → Str) (h : HelpDiscoverer) (cliName : Str) :
    Nat → List Str → Int → Node
  | 0, args, _ =>
      let fullPath := cliName :: args
      .mk (lastElement fullPath) fullPath [] [] [] [] [] true false
  | fuel + 1, args, depth =>
      let fullPath := cliName :: args
      match runHelp run args with
      | none =>
          .mk (lastElement fullPath) fullPath (couldNotGetHelp cliName) [] [] [] [] true false
      | some helpText =>
          let parsed := ParseHelpOutput helpText
          if depth < h.MaxDepth ∧ parsed.subcommands ≠ [] then
            let children := parsed.subcommands.map (fun sub =>
              let subArgs := args ++ [sub]
              let subFull := fullPath ++ [sub]
              match runHelp run subArgs with
              | none => .mk sub subFull (couldNotGetHelp cliName) [] [] [] [] true false
              | some childHelp =>
                  if childHelp = helpText then
                    let cp := ParseHelpOutput childHelp
                    .mk sub subFull cp.description cp.flags cp.positionals [] childHelp true false
                  else discover run h cliName fuel subArgs (depth + 1))
            .mk (lastElement fullPath) fullPath parsed.description parsed.flags
              parsed.positionals children helpText true false
          else if parsed.sections.length > 1 then
            let children := parsed.sections.map (fun sec =>
              let slug := sectionSlug sec.name
              .mk slug (fullPath ++ [slug]) sec.name sec.flags [] [] [] true true)
            .mk (lastElement fullPath) fullPath parsed.description parsed.flags
              parsed.positionals children helpText true false
          else
            .mk (lastElement fullPath) fullPath parsed.description parsed.flags
              parsed.positionals [] helpText true false

/-- Fuel sufficient for every recursion `Discover` can reach. -/
def discoverFuel (h : HelpDiscoverer) : Nat := h.MaxDepth.toNat + 1

/-- Go `(*HelpDiscoverer).Discover`: `discover` at depth 0. -/
def Discover (run : List Str → Str) (h : HelpDiscoverer) (cliName : Str)
    (args : List Str) : Node :=
  discover run h cliName (discoverFuel h) args 0

/-- The body of one child-probe goroutine (lines 79–117 of `help.go`): fetch
the child's help, degrade to a stub on failure, treat parent-echoing help as a
leaf, otherwise recurse. `discover` fills slot `i` with exactly this value. -/
def discoverChild (run : List Str → Str) (h : HelpDiscoverer) (cliName : Str)
    (fuel : Nat) (args : List Str) (fullPath : List Str) (helpText : Str)
    (depth : Int) (sub : Str) : Node :=
  let subArgs := args ++ [sub]
  let subFull := fullPath ++ [sub]
  match runHelp run subArgs with
  | none => .mk sub subFull (couldNotGetHelp cliName) [] [] [] [] true false
  | some childHelp =>
      if childHelp = helpText then
        let cp := ParseHelpOutput childHelp
        .mk sub subFull cp.description cp.flags cp.positionals [] childHelp true false
      else discover run h cliName fuel subArgs (depth + 1)

mutual

/-- Pre-order listing of all nodes of a tree (Go `(*Node).Walk`). -/
def nodeList : Node → List Node
  | .mk n fp d fl ps cs ht disc v => Node.mk n fp d fl ps cs ht disc v :: nodeForest cs

/-- Pre-order listing of a forest of trees. -/
def nodeForest : List Node → List Node
  | [] => []
  | t :: ts => nodeList t ++ nodeForest ts

end

/-! ### Heap model for `Clone` and `Merge`

`Merge` is specified in terms of mutation and sharing of `*models.Node`
pointers, so it is embedded against an explicit heap: a list of `NodeObj`
cells addressed by index, with `Children` holding cell indices. Allocation
appends; mutation is `List.set`. The recursion of `Clone`/`mergeInto` walks the
heap, so both take a structural fuel and return `none` when it runs out (which
also covers cyclic heaps); the frame theorem is conditional on success. -/

/-- A heap cell: `models.Node` with children as heap indices. -/
structure NodeObj where
  name : Str
  fullPath : List Str
  description : Str
  flags : List Flag
  positionals : List Positional
  children : List Nat
  helpText : Str
  discovered : Bool
  virtualNode : Bool
deriving Repr, DecidableEq

/-- The heap: cell `i` is `h[i]`. New cells are appended. -/
abbrev Heap := List NodeObj

/-- Go `(*Node).Clone`, lifted to a list of roots: deep-copy each tree in
`ids` into fresh cells, returning the new heap and the ids of the copies.
(`Clone` copies every scalar and slice field and recursively clones
`Children`; the checked-in `node.go` predates the `Virtual` field, and the
copy keeps it like every other scalar field.) -/
def cloneList : Nat → Heap → List Nat → Option (Heap × List Nat)
  | _, h, [] => some (h, [])
  | 0, _, _ :: _ => none
  | fuel + 1, h, i :: rest =>
      match h[i]? with
      | none => none
      | some obj =>
          match cloneList fuel h obj.children with
          | none => none
          | some (h1, cids) =>
              let h2 := h1 ++ [{ obj with children := cids }]
              match cloneList fuel h2 rest with
              | none => none
              | some (h3, ris) => some (h3, h1.length :: ris)

/-- The scalar part of `mergeInto`: first-non-empty `Description`/`HelpText`,
then `Flags`/`Positionals` deduplicated against the destination's entries
(the Go `flagSet`/`posSet` maps are built from `dst` before the append loop
and not updated during it). -/
def mergeScalars (d s : NodeObj) : NodeObj :=
  let d1 := if d.description = [] then { d with description := s.description } else d
  let d2 := if d1.helpText = [] then { d1 with helpText := s.helpText } else d1
  let newFlags := d2.flags ++ s.flags.filter (fun f => ! d2.flags.any (fun g => g.name = f.name))
  let d3 := { d2 with flags := newFlags }
  let newPos := d3.positionals ++
    s.positionals.filter (fun p => ! d3.positionals.any (fun q => q.name = p.name))
  { d3 with positionals := newPos }

/-- First child of `dst` whose cell has the given name (`mergeInto`'s inner
loop over `dst.Children` with `break` on the first match). -/
def findChildByName (h : Heap) (kids : List Nat) (nm : Str) : Option Nat :=
  kids.find? (fun cid =>
    match h[cid]? with
    | some c => c.name = nm
    | none => false)

/-- Work items for the `mergeInto` recursion: merge one node pair, or process
the remaining source children of a destination node. The task list is the
call stack of the Go recursion, so processing order matches it exactly. -/
inductive MTask where
  | node (dst src : Nat)
  | kids (dst : Nat) (srcKids : List Nat)

/-- Go `mergeInto`, run as a task loop. A `node` task merges scalars into
`dst` and queues the source children; a `kids` task merges each source child
into the first name-matched destination child, or clones and appends it. -/
def mergeRun : Nat → Heap → List MTask → Option Heap
  | _, h, [] => some h
  | 0, _, _ :: _ => none
  | fuel + 1, h, t :: rest =>
      match t with
      | .node dst src =>
          match h[dst]?, h[src]? with
          | some d, some s =>
              let h1 := h.set dst (mergeScalars d s)
              (match h1[src]? with
               | some s1 => mergeRun fuel h1 (.kids dst s1.children :: rest)
               | none => none)
          | _, _ => none
      | .kids _ [] => mergeRun fuel h rest
      | .kids dst (sc :: scs) =>
          match h[sc]?, h[dst]? with
          | some scObj, some dObj =>
              (match findChildByName h dObj.children scObj.name with
               | some cid => mergeRun fuel h (.node cid sc :: .kids dst scs :: rest)
               | none =>
                   match cloneList fuel h [sc] with
                   | some (h2, [nid]) =>
                       (match h2[dst]? with
                        | some dObj2 =>
                            let h3 := h2.set dst
                              { dObj2 with children := dObj2.children ++ [nid] }
                            mergeRun fuel h3 (.kids dst scs :: rest)
                        | none => none)
                   | _ => none)
          | _, _ => none

/-- Go `Merge`: `nil` for an empty list (modelled as result id `none`),
otherwise deep-copy `trees[0]` and `mergeInto` each later tree into the copy. -/
def Merge (fuel : Nat) (h : Heap) (trees : List Nat) : Option (Heap × Option Nat) :=
  match trees with
  | [] => some (h, none)
  | r0 :: rest =>
      match cloneList fuel h [r0] with
      | some (h1, [rid]) =>
          match mergeRun fuel h1 (rest.map (fun t => MTask.node rid t)) with
          | some h2 => some (h2, some rid)
          | none => none
      | _ => none

/-- Executable heap well-formedness: every child index of every cell is in
bounds. -/
def heapWF (h : Heap) : Bool :=
  h.all (fun obj => obj.children.all (fun c => c < h.length))

/-- Pointer reachability through `Children` in a heap. -/
inductive Reachable (h : Heap) : Nat → Nat → Prop where
  | refl (i : Nat) : Reachable h i i
  | step {i j c : Nat} (hij : Reachable h i j) (obj : NodeObj)
      (hobj : h[j]? = some obj) (hc : c ∈ obj.children) : Reachable h i c

/-! ### Pre-indexed result slots (concurrency model for the child fan-out)

Each child-probe goroutine writes `results[i]` for its own `i`; writes happen
in completion order, modelled as a schedule: the list of slot indices in the
order the probes finish. A bounded semaphore only restricts which schedules
can occur, so schedule-invariance covers every concurrency limit. -/

/-- Fill the pre-sized slot array in schedule order; slot `i` receives
`compute i` regardless of when it is written. -/
def runSchedule (compute : Nat → Node) (n : Nat) (sched : List Nat) : List (Option Node) :=
  sched.foldl (fun slots i => slots.set i (some (compute i))) (List.replicate n none)

/-- Collect the slots into `Children`, skipping unfilled ones
(`if r.child != nil` in the Go loop). -/
def collectChildren (slots : List (Option Node)) : List Node := slots.filterMap id

/-! ### Helper lemmas -/

theorem nodeList_def (n : Str) (fp : List Str) (d : Str) (fl : List Flag)
    (ps : List Positional) (cs : List Node) (ht : Str) (disc v : Bool) :
    nodeList (.mk n fp d fl ps cs ht disc v) = .mk n fp d fl ps cs ht disc v :: nodeForest cs := by
  rw [nodeList]

theorem mem_nodeForest {m : Node} {ts : List Node} :
    m ∈ nodeForest ts ↔ ∃ t ∈ ts, m ∈ nodeList t := by
  induction ts with
  | nil => simp [nodeForest]
  | cons t ts ih => rw [nodeForest]; simp [ih]

/-- The children computed by `discover` when the fan-out branch is taken are
exactly the in-order `discoverChild` values, one slot per subcommand. -/
theorem discover_children_eq (run : List Str → Str) (h : HelpDiscoverer) (cliName : Str)
    (fuel : Nat) (args : List Str) (depth : Int) (helpText : Str)
    (hrun : runHelp run args = some helpText)
    (hdep : depth < h.MaxDepth)
    (hsubs : (ParseHelpOutput helpText).subcommands ≠ []) :
    (discover run h cliName (fuel + 1) args depth).children =
      (ParseHelpOutput helpText).subcommands.map
        (discoverChild run h cliName fuel args (cliName :: args) helpText depth) := by
  rw [discover, hrun]
  simp only [if_pos (And.intro hdep hsubs)]
  rfl

/-! ### Claim C9 -/

/-- Claim C9: `NewHelpDiscoverer` normalizes every non-positive `maxDepth`
(including 0) to the default 3, with a per-probe timeout of 5 seconds. -/
theorem c9_new_help_discoverer_defaults (d : Int) (hd : d ≤ 0) :
    (NewHelpDiscoverer d).MaxDepth = 3 ∧ (NewHelpDiscoverer d).Timeout = 5 * timeSecond := by
  simp [NewHelpDiscoverer, if_pos hd]

theorem c9_witness :
    (NewHelpDiscoverer 0).MaxDepth = 3 ∧ (NewHelpDiscoverer 0).Timeout = 5 * timeSecond :=
  c9_new_help_discoverer_defaults 0 (le_refl 0)

/-! ### Claim C10 -/

/-- Claim C10 (amended): `ParseHelpOutput` strips ANSI escapes before any other
processing, so parsing `text` agrees with parsing `stripANSI text` whenever
`stripANSI` is idempotent on `text`; a single removal pass can expose a new
escape sequence, so the unconditional claim fails. -/
theorem c10_strip_ansi_first (ord : List (Str × Str)) (text : Str)
    (hid : stripANSI (stripANSI text) = stripANSI text) :
    ParseHelpOutputOrd ord text = ParseHelpOutputOrd ord (stripANSI text) := by
  conv_lhs => rw [ParseHelpOutputOrd]
  conv_rhs => rw [ParseHelpOutputOrd, hid]

/-- Input on which `stripANSI` is not idempotent: removing `ESC [ 0 m` from the
middle glues a new `ESC [ 0 m` together. -/
def c10cexText : Str := "\x1b[\x1b[0m0m".data

theorem c10_counterexample :
    ParseHelpOutput c10cexText ≠ ParseHelpOutput (stripANSI c10cexText) := fun hcontra =>
  absurd (congrArg ParsedHelp.description hcontra) (by decide)

def c10wText : Str := "Flags:\n  \x1b[1m--a\x1b[0m  x\n".data

theorem c10_witness :
    stripANSI (stripANSI c10wText) = stripANSI c10wText ∧
    ParseHelpOutputOrd sectionHeadersList c10wText =
      ParseHelpOutputOrd sectionHeadersList (stripANSI c10wText) :=
  ⟨by decide, c10_strip_ansi_first sectionHeadersList c10wText (by decide)⟩

/-! ### Claim C5 -/

/-- Claim C5 (amended): when a help invocation returns text matching the
truncated-help signature, `runHelp` retries with `--help all` and prefers that
second response whenever it is non-empty; if the expanded invocation returns
empty output, the truncated first response is still the one handed on. -/
theorem c5_truncated_retry (run : List Str → Str) (args : List Str)
    (hs : trimSpace (run (args ++ ["--help".data])) ≠ [])
    (ht : truncatedHelpMatch (trimSpace (run (args ++ ["--help".data]))) = true)
    (hs2 : trimSpace (run (args ++ ["--help".data, "all".data])) ≠ []) :
    runHelp run args = some (trimSpace (run (args ++ ["--help".data, "all".data]))) := by
  rw [runHelp, helpFlagTries]
  simp only [if_neg hs, ht, if_true, if_pos hs2]

/-- Oracle whose `--help` output carries the truncated-help signature while
`--help all` produces nothing. -/
def c5cexRun (cmdArgs : List Str) : Str :=
  if cmdArgs = ["--help".data] then "not the full help".data else []

/-- Claim C5 counterexample: the first response matches the truncated
signature, the expanded invocation is empty, and `runHelp` hands the truncated
first response to the parser after all. -/
theorem c5_counterexample :
    truncatedHelpMatch (trimSpace (c5cexRun ["--help".data])) = true ∧
    trimSpace (c5cexRun ["--help".data, "all".data]) = [] ∧
    runHelp c5cexRun [] = some (trimSpace (c5cexRun ["--help".data])) := by decide

def c5wRun (cmdArgs : List Str) : Str :=
  if cmdArgs = ["--help".data] then "not the full help".data
  else if cmdArgs = ["--help".data, "all".data] then "the full help text".data
  else []

theorem c5_witness :
    runHelp c5wRun [] = some (trimSpace (c5wRun ("--help".data :: "all".data :: []))) :=
  c5_truncated_retry c5wRun [] (by decide) (by decide) (by decide)

/-! ### Claim C3 -/

/-- Claim C3 (amended): when a node's parse yields zero subcommands and the
retained flag Sections number more than one, `discover` synthesizes exactly
one `Virtual` leaf child per Section, each carrying only that section's flags;
a single retained Section produces no virtual children. -/
theorem c3_virtual_children (run : List Str → Str) (h : HelpDiscoverer) (cliName : Str)
    (fuel : Nat) (args : List Str) (depth : Int) (helpText : Str)
    (hrun : runHelp run args = some helpText)
    (hsubs : (ParseHelpOutput helpText).subcommands = [])
    (hsec : 1 < (ParseHelpOutput helpText).sections.length) :
    (discover run h cliName (fuel + 1) args depth).children =
      (ParseHelpOutput helpText).sections.map (fun sec =>
        Node.mk (sectionSlug sec.name) ((cliName :: args) ++ [sectionSlug sec.name])
          sec.name sec.flags [] [] [] true true) := by
  rw [discover, hrun]
  have hcond : ¬ (depth < h.MaxDepth ∧ (ParseHelpOutput helpText).subcommands ≠ []) := by
    simp [hsubs]
  simp only [if_neg hcond, if_pos hsec]
  rfl

/-- Help text with zero subcommand lines and exactly one retained section. -/
def c3Text1 : Str := "Flags:\n  --a  x\n  --b  y".data

def c3cexRun (cmdArgs : List Str) : Str :=
  if cmdArgs = ["--help".data] then c3Text1 else []

/-- Claim C3 counterexample: zero subcommands and exactly one retained Section
yield zero children, not one Virtual child for the Section. -/
theorem c3_counterexample :
    (ParseHelpOutput c3Text1).subcommands = [] ∧
    (ParseHelpOutput c3Text1).sections.length = 1 ∧
    (Discover c3cexRun (NewHelpDiscoverer 3) "cli".data []).children.length = 0 := by decide

/-- Help text with zero subcommand lines and two retained sections. -/
def c3Text2 : Str := "Flags:\n  --a  x\n  --b  y\nOptions:\n  --c  z\n  --d  w".data

def c3wRun (cmdArgs : List Str) : Str :=
  if cmdArgs = ["--help".data] then c3Text2 else []

theorem c3_witness :
    (Discover c3wRun (NewHelpDiscoverer 3) "cli".data []).children =
      (ParseHelpOutput c3Text2).sections.map (fun sec =>
        Node.mk (sectionSlug sec.name) (("cli".data :: ([] : List Str)) ++ [sectionSlug sec.name])
          sec.name sec.flags [] [] [] true true) :=
  c3_virtual_children c3wRun (NewHelpDiscoverer 3) "cli".data 3 [] 0 c3Text2
    (by decide) (by decide) (by decide)

theorem mem_nodeList_mk {m : Node} {n fp d fl ps cs ht disc v} :
    m ∈ nodeList (.mk n fp d fl ps cs ht disc v) ↔
      m = .mk n fp d fl ps cs ht disc v ∨ m ∈ nodeForest cs := by
  rw [nodeList_def]; simp

/-- Every node produced by the help discoverer has `Discovered = true`; the
failed-probe stubs are constructed with `Discovered: true` like every other
node. -/
theorem discover_all_discovered (run : List Str → Str) (h : HelpDiscoverer) (cliName : Str) :
    ∀ (fuel : Nat) (args : List Str) (depth : Int),
      ∀ m ∈ nodeList (discover run h cliName fuel args depth), m.discovered = true := by
  intro fuel
  induction fuel with
  | zero =>
      intro args depth m hm
      rw [discover] at hm
      rcases mem_nodeList_mk.mp hm with rfl | hin
      · rfl
      · simp [nodeForest] at hin
  | succ fuel ih =>
      intro args depth m hm
      rw [discover] at hm
      cases hrun : runHelp run args with
      | none =>
          simp only [hrun] at hm
          rcases mem_nodeList_mk.mp hm with rfl | hin
          · rfl
          · simp [nodeForest] at hin
      | some helpText =>
          simp only [hrun] at hm
          by_cases hb : depth < h.MaxDepth ∧ (ParseHelpOutput helpText).subcommands ≠ []
          · rw [if_pos hb] at hm
            rcases mem_nodeList_mk.mp hm with rfl | hin
            · rfl
            · obtain ⟨t, htmem, hmt⟩ := mem_nodeForest.mp hin
              obtain ⟨sub, _, rfl⟩ := List.mem_map.mp htmem
              cases hrun2 : runHelp run (args ++ [sub]) with
              | none =>
                  simp only [hrun2] at hmt
                  rcases mem_nodeList_mk.mp hmt with rfl | hin2
                  · rfl
                  · simp [nodeForest] at hin2
              | some childHelp =>
                  simp only [hrun2] at hmt
                  by_cases hch : childHelp = helpText
                  · rw [if_pos hch] at hmt
                    rcases mem_nodeList_mk.mp hmt with rfl | hin2
                    · rfl
                    · simp [nodeForest] at hin2
                  · rw [if_neg hch] at hmt
                    exact ih (args ++ [sub]) (depth + 1) m hmt
          · rw [if_neg hb] at hm
            by_cases hsec : 1 < (ParseHelpOutput helpText).sections.length
            · rw [if_pos hsec] at hm
              rcases mem_nodeList_mk.mp hm with rfl | hin
              · rfl
              · obtain ⟨t, htmem, hmt⟩ := mem_nodeForest.mp hin
                obtain ⟨sec, _, rfl⟩ := List.mem_map.mp htmem
                rcases mem_nodeList_mk.mp hmt with rfl | hin2
                · rfl
                · simp [nodeForest] at hin2
            · rw [if_neg hsec] at hm
              rcases mem_nodeList_mk.mp hm with rfl | hin
              · rfl
              · simp [nodeForest] at hin

/-- Depth bound for `discover`: starting at `depth ≤ MaxDepth`, every node of
the resulting tree has a `FullPath` no longer than
`(args.length + 1) + (MaxDepth - depth) + 1`; the final `+ 1` is contributed
only by `Virtual` section children of a maximally deep node. -/
theorem discover_path_bound (run : List Str → Str) (h : HelpDiscoverer) (cliName : Str) :
    ∀ (fuel : Nat) (args : List Str) (depth : Int), depth ≤ h.MaxDepth →
      ∀ m ∈ nodeList (discover run h cliName fuel args depth),
        (m.fullPath.length : Int) ≤ (args.length + 1) + (h.MaxDepth - depth) + 1 := by
  intro fuel
  induction fuel with
  | zero =>
      intro args depth hdep m hm
      rw [discover] at hm
      rcases mem_nodeList_mk.mp hm with rfl | hin
      · simp only [Node.fullPath, List.length_cons]
        push_cast
        omega
      · simp [nodeForest] at hin
  | succ fuel ih =>
      intro args depth hdep m hm
      rw [discover] at hm
      cases hrun : runHelp run args with
      | none =>
          simp only [hrun] at hm
          rcases mem_nodeList_mk.mp hm with rfl | hin
          · simp only [Node.fullPath, List.length_cons]
            push_cast
            omega
          · simp [nodeForest] at hin
      | some helpText =>
          simp only [hrun] at hm
          by_cases hb : depth < h.MaxDepth ∧ (ParseHelpOutput helpText).subcommands ≠ []
          · obtain ⟨hdlt, hsne⟩ := hb
            rw [if_pos (And.intro hdlt hsne)] at hm
            rcases mem_nodeList_mk.mp hm with rfl | hin
            · simp only [Node.fullPath, List.length_cons]
              push_cast
              omega
            · obtain ⟨t, htmem, hmt⟩ := mem_nodeForest.mp hin
              obtain ⟨sub, _, rfl⟩ := List.mem_map.mp htmem
              cases hrun2 : runHelp run (args ++ [sub]) with
              | none =>
                  simp only [hrun2] at hmt
                  rcases mem_nodeList_mk.mp hmt with rfl | hin2
                  · simp only [Node.fullPath, List.length_append, List.length_cons,
                      List.length_singleton, List.length_nil]
                    push_cast
                    omega
                  · simp [nodeForest] at hin2
              | some childHelp =>
                  simp only [hrun2] at hmt
                  by_cases hch : childHelp = helpText
                  · rw [if_pos hch] at hmt
                    rcases mem_nodeList_mk.mp hmt with rfl | hin2
                    · simp only [Node.fullPath, List.length_append, List.length_cons,
                        List.length_singleton, List.length_nil]
                      push_cast
                      omega
                    · simp [nodeForest] at hin2
                  · rw [if_neg hch] at hmt
                    have hrec := ih (args ++ [sub]) (depth + 1) (by omega) m hmt
                    simp only [List.length_append, List.length_singleton, List.length_nil] at hrec
                    push_cast at hrec ⊢
                    omega
          · rw [if_neg hb] at hm
            by_cases hsec : 1 < (ParseHelpOutput helpText).sections.length
            · rw [if_pos hsec] at hm
              rcases mem_nodeList_mk.mp hm with rfl | hin
              · simp only [Node.fullPath, List.length_cons]
                push_cast
                omega
              · obtain ⟨t, htmem, hmt⟩ := mem_nodeForest.mp hin
                obtain ⟨sec, _, rfl⟩ := List.mem_map.mp htmem
                rcases mem_nodeList_mk.mp hmt with rfl | hin2
                · simp only [Node.fullPath, List.length_append, List.length_cons,
                    List.length_singleton, List.length_nil]
                  push_cast
                  omega
                · simp [nodeForest] at hin2
            · rw [if_neg hsec] at hm
              rcases mem_nodeList_mk.mp hm with rfl | hin
              · simp only [Node.fullPath, List.length_cons]
                push_cast
                omega
              · simp [nodeForest] at hin

/-! ### Claim C1 -/

/-- Claim C1 (amended): a child probe whose help fetch fails entirely still
produces a stub Node for that path carrying the human-readable failure
description, and the children are computed slot-by-slot from each subcommand
alone, so a failure neither removes nor alters siblings or the parent; however
the stub's `Discovered` field is `true` — every node the help discoverer
produces has `Discovered = true`, so `Discovered` is never `false`, not even
on failed-probe stubs. -/
theorem c1_failed_probe_stub :
    (∀ (run : List Str → Str) (h : HelpDiscoverer) (cliName : Str) (fuel : Nat)
       (args fullPath : List Str) (helpText : Str) (depth : Int) (sub : Str),
       runHelp run (args ++ [sub]) = none →
       discoverChild run h cliName fuel args fullPath helpText depth sub =
         Node.mk sub (fullPath ++ [sub]) (couldNotGetHelp cliName) [] [] [] [] true false) ∧
    (∀ (run : List Str → Str) (h : HelpDiscoverer) (cliName : Str) (fuel : Nat)
       (args : List Str) (depth : Int) (helpText : Str),
       runHelp run args = some helpText →
       depth < h.MaxDepth →
       (ParseHelpOutput helpText).subcommands ≠ [] →
       (discover run h cliName (fuel + 1) args depth).children =
         (ParseHelpOutput helpText).subcommands.map
           (discoverChild run h cliName fuel args (cliName :: args) helpText depth)) ∧
    (∀ (run : List Str → Str) (h : HelpDiscoverer) (cliName : Str) (fuel : Nat)
       (args : List Str) (depth : Int),
       ∀ m ∈ nodeList (discover run h cliName fuel args depth), m.discovered = true) := by
  refine ⟨?_, ?_, ?_⟩
  · intro run h cliName fuel args fullPath helpText depth sub hfail
    rw [discoverChild, hfail]
  · intro run h cliName fuel args depth helpText hrun hdep hsubs
    exact discover_children_eq run h cliName fuel args depth helpText hrun hdep hsubs
  · intro run h cliName fuel args depth
    exact discover_all_discovered run h cliName fuel args depth

/-- Oracle for C1: two subcommands, `good` answers, `bad` fails entirely. -/
def c1RootText : Str := "Commands:\n  good  a\n  bad  b".data

def c1GoodText : Str := "good text".data

def c1Run (cmdArgs : List Str) : Str :=
  if cmdArgs = ["--help".data] then c1RootText
  else if cmdArgs = ["good".data, "--help".data] then c1GoodText
  else []

/-- Claim C1 counterexample: the probe for `bad` fails entirely, both siblings
are present with the stub carrying the failure description, yet the stub's
`Discovered` field is `true`, not `false` as the claim states. -/
theorem c1_counterexample :
    runHelp c1Run ["bad".data] = none ∧
    (Discover c1Run (NewHelpDiscoverer 2) "cli".data []).children.map
        (fun c => (c.name, c.description, c.discovered)) =
      [("good".data, "good text".data, true),
       ("bad".data, couldNotGetHelp "cli".data, true)] := by decide

theorem c1_witness :
    (discoverChild c1Run (NewHelpDiscoverer 2) "cli".data 2 [] ["cli".data] c1RootText 0
        "bad".data =
      Node.mk "bad".data ["cli".data, "bad".data] (couldNotGetHelp "cli".data)
        [] [] [] [] true false) ∧
    ((Discover c1Run (NewHelpDiscoverer 2) "cli".data []).children =
      (ParseHelpOutput c1RootText).subcommands.map
        (discoverChild c1Run (NewHelpDiscoverer 2) "cli".data 2 [] ["cli".data] c1RootText 0)) ∧
    (∀ m ∈ nodeList (Discover c1Run (NewHelpDiscoverer 2) "cli".data []), m.discovered = true) :=
  ⟨c1_failed_probe_stub.1 c1Run (NewHelpDiscoverer 2) "cli".data 2 [] ["cli".data]
      c1RootText 0 "bad".data (by decide),
   c1_failed_probe_stub.2.1 c1Run (NewHelpDiscoverer 2) "cli".data 2 [] 0 c1RootText
      (by decide) (by decide) (by decide),
   c1_failed_probe_stub.2.2 c1Run (NewHelpDiscoverer 2) "cli".data 3 [] 0⟩

/-! ### Claim C2 -/

/-- Claim C2 (amended): every node of a `Discover` tree has
`FullPath.length ≤ maxDepth + 2`; the `maxDepth + 1` bound of the original
claim holds for all nodes except `Virtual` section children synthesized under
a node at the maximal depth, which reach `maxDepth + 2`. -/
theorem c2_depth_bound (run : List Str → Str) (h : HelpDiscoverer) (cliName : Str)
    (hpos : 0 ≤ h.MaxDepth) :
    ∀ m ∈ nodeList (Discover run h cliName []), (m.fullPath.length : Int) ≤ h.MaxDepth + 2 := by
  intro m hm
  have hb := discover_path_bound run h cliName (discoverFuel h) [] 0 hpos m hm
  simp only [List.length_nil, Int.sub_zero] at hb
  omega

/-- Oracle for C2: one subcommand whose help has two retained flag sections. -/
def c2RootText : Str := "Commands:\n  s  d".data

def c2SubText : Str := "Flags:\n  --a  x\n  --b  y\nOptions:\n  --c  z\n  --d  w".data

def c2Run (cmdArgs : List Str) : Str :=
  if cmdArgs = ["--help".data] then c2RootText
  else if cmdArgs = ["s".data, "--help".data] then c2SubText
  else []

/-- Claim C2 counterexample: with `maxDepth = 1`, the `Virtual` section
children of the depth-1 node have `FullPath` of length 3 > `maxDepth + 1`. -/
theorem c2_counterexample :
    ¬ (∀ m ∈ nodeList (Discover c2Run (NewHelpDiscoverer 1) "cli".data []),
        (m.fullPath.length : Int) ≤ (NewHelpDiscoverer 1).MaxDepth + 1) := by
  intro hall
  have hany : (nodeList (Discover c2Run (NewHelpDiscoverer 1) "cli".data [])).any
      (fun m => decide (((NewHelpDiscoverer 1).MaxDepth + 1 : Int) < m.fullPath.length)) = true := by
    decide
  obtain ⟨m, hmem, hdec⟩ := List.any_eq_true.mp hany
  have hlt := of_decide_eq_true hdec
  have hle := hall m hmem
  omega

theorem c2_witness :
    (0 : Int) ≤ (NewHelpDiscoverer 1).MaxDepth ∧
    (∀ m ∈ nodeList (Discover c2Run (NewHelpDiscoverer 1) "cli".data []),
      (m.fullPath.length : Int) ≤ (NewHelpDiscoverer 1).MaxDepth + 2) :=
  ⟨by decide, c2_depth_bound c2Run (NewHelpDiscoverer 1) "cli".data (by decide)⟩

/-! ### Claim C8 -/

theorem foldl_set_length (compute : Nat → Node) (sched : List Nat)
    (slots : List (Option Node)) :
    (sched.foldl (fun sl i => sl.set i (some (compute i))) slots).length = slots.length := by
  induction sched generalizing slots with
  | nil => rfl
  | cons i rest ih => simp [List.foldl_cons, ih]

theorem foldl_set_getElem? (compute : Nat → Node) (sched : List Nat)
    (slots : List (Option Node)) (j : Nat) :
    (sched.foldl (fun sl i => sl.set i (some (compute i))) slots)[j]? =
      if j ∈ sched ∧ j < slots.length then some (some (compute j)) else slots[j]? := by
  induction sched generalizing slots with
  | nil => simp
  | cons i rest ih =>
      rw [List.foldl_cons, ih]
      by_cases hmem : j ∈ rest
      · by_cases hlt : j < slots.length
        · simp [hmem, hlt]
        · rw [if_neg (fun hand : j ∈ rest ∧ j < (slots.set i (some (compute i))).length =>
              hlt (by simpa using hand.2)),
            if_neg (fun hand : j ∈ i :: rest ∧ j < slots.length => hlt hand.2),
            List.getElem?_eq_none (by rw [List.length_set]; omega),
            List.getElem?_eq_none (le_of_not_lt hlt)]
      · by_cases hij : i = j
        · subst hij
          by_cases hlt : i < slots.length
          · simp [hmem, hlt, List.getElem?_set]
          · simp only [hmem, false_and, if_false, List.length_set, hlt, and_false,
              List.set_eq_of_length_le (le_of_not_lt hlt)]
        · have hji : j ≠ i := Ne.symm hij
          simp only [hmem, false_and, if_false, List.length_set, List.mem_cons,
            List.getElem?_set_ne hij]
          rw [if_neg (by simp [hmem, hji])]

/-- Slot array after a complete schedule: every slot `i` holds `compute i`,
independent of the order the writes arrived in. -/
theorem runSchedule_perm (compute : Nat → Node) (n : Nat) (sched : List Nat)
    (hperm : sched.Perm (List.range n)) :
    runSchedule compute n sched = (List.range n).map (fun i => some (compute i)) := by
  apply List.ext_getElem?
  intro j
  rw [runSchedule, foldl_set_getElem?]
  have hmem : j ∈ sched ↔ j < n := by rw [hperm.mem_iff, List.mem_range]
  by_cases hj : j < n
  · simp [hmem, hj, List.getElem?_replicate]
  · simp only [hmem, hj, and_false, if_false, List.getElem?_replicate, List.getElem?_map]
    rw [List.getElem?_eq_none (by simpa using le_of_not_lt hj)]
    rfl

theorem collectChildren_filled (compute : Nat → Node) (n : Nat) :
    collectChildren ((List.range n).map (fun i => some (compute i))) =
      (List.range n).map compute := by
  rw [collectChildren, List.filterMap_map]
  exact List.filterMap_eq_map compute ▸ rfl

theorem map_eq_range_map_getD (f : Str → Node) (l : List Str) :
    l.map f = (List.range l.length).map (fun i => f (l.getD i [])) := by
  apply List.ext_getElem?
  intro j
  by_cases hj : j < l.length
  · simp [List.getElem?_map, List.getElem?_range, hj, List.getElem?_eq_getElem,
      List.getD_eq_getElem?_getD]
  · rw [List.getElem?_eq_none (by simpa using le_of_not_lt hj), List.getElem?_map,
      List.getElem?_eq_none (by simpa using le_of_not_lt hj)]
    rfl

/-- Claim C8: the children of a discovered node are the per-subcommand results
in original subcommand-listing order, for every completion schedule of the
pre-indexed result slots; in particular any two schedules (e.g. those allowed
by concurrency limits 1 and 8) produce identical `Children`. -/
theorem c8_children_schedule_invariant (run : List Str → Str) (h : HelpDiscoverer)
    (cliName : Str) (fuel : Nat) (args : List Str) (depth : Int) (helpText : Str)
    (sched₁ sched₂ : List Nat)
    (hrun : runHelp run args = some helpText)
    (hdep : depth < h.MaxDepth)
    (hsubs : (ParseHelpOutput helpText).subcommands ≠ [])
    (hp₁ : sched₁.Perm (List.range (ParseHelpOutput helpText).subcommands.length))
    (hp₂ : sched₂.Perm (List.range (ParseHelpOutput helpText).subcommands.length)) :
    collectChildren (runSchedule
        (fun i => discoverChild run h cliName fuel args (cliName :: args) helpText depth
          ((ParseHelpOutput helpText).subcommands.getD i []))
        (ParseHelpOutput helpText).subcommands.length sched₁) =
      (discover run h cliName (fuel + 1) args depth).children ∧
    collectChildren (runSchedule
        (fun i => discoverChild run h cliName fuel args (cliName :: args) helpText depth
          ((ParseHelpOutput helpText).subcommands.getD i []))
        (ParseHelpOutput helpText).subcommands.length sched₂) =
      collectChildren (runSchedule
        (fun i => discoverChild run h cliName fuel args (cliName :: args) helpText depth
          ((ParseHelpOutput helpText).subcommands.getD i []))
        (ParseHelpOutput helpText).subcommands.length sched₁) := by
  have hfill : ∀ sched, sched.Perm (List.range (ParseHelpOutput helpText).subcommands.length) →
      collectChildren (runSchedule
        (fun i => discoverChild run h cliName fuel args (cliName :: args) helpText depth
          ((ParseHelpOutput helpText).subcommands.getD i []))
        (ParseHelpOutput helpText).subcommands.length sched) =
      (ParseHelpOutput helpText).subcommands.map
        (discoverChild run h cliName fuel args (cliName :: args) helpText depth) := by
    intro sched hp
    rw [runSchedule_perm _ _ _ hp, collectChildren_filled,
      map_eq_range_map_getD (discoverChild run h cliName fuel args (cliName :: args) helpText depth)]
  constructor
  · rw [hfill sched₁ hp₁,
      discover_children_eq run h cliName fuel args depth helpText hrun hdep hsubs]
  · rw [hfill sched₁ hp₁, hfill sched₂ hp₂]

theorem c8_witness :
    collectChildren (runSchedule
        (fun i => discoverChild c1Run (NewHelpDiscoverer 2) "cli".data 1 [] ["cli".data]
          c1RootText 0 ((ParseHelpOutput c1RootText).subcommands.getD i []))
        (ParseHelpOutput c1RootText).subcommands.length [1, 0]) =
      (discover c1Run (NewHelpDiscoverer 2) "cli".data (1 + 1) [] 0).children ∧
    collectChildren (runSchedule
        (fun i => discoverChild c1Run (NewHelpDiscoverer 2) "cli".data 1 [] ["cli".data]
          c1RootText 0 ((ParseHelpOutput c1RootText).subcommands.getD i []))
        (ParseHelpOutput c1RootText).subcommands.length [0, 1]) =
      collectChildren (runSchedule
        (fun i => discoverChild c1Run (NewHelpDiscoverer 2) "cli".data 1 [] ["cli".data]
          c1RootText 0 ((ParseHelpOutput c1RootText).subcommands.getD i []))
        (ParseHelpOutput c1RootText).subcommands.length [1, 0]) :=
  c8_children_schedule_invariant c1Run (NewHelpDiscoverer 2) "cli".data 1 [] 0 c1RootText
    [1, 0] [0, 1] (by decide) (by decide) (by decide) (by decide) (by decide)

/-! ### Claim C6 -/

/-- Invariant tying the `seenFlags` set to the names in `result.Flags`: the
names are duplicate-free and `seenFlags` holds exactly them. -/
def FlagInv (st : PHState) : Prop :=
  (st.result.flags.map Flag.name).Nodup ∧
  ∀ nm : Str, nm ∈ st.seenFlags ↔ nm ∈ st.result.flags.map Flag.name

theorem flagKeys_eq_inv {st st' : PHState}
    (hf : st'.result.flags = st.result.flags)
    (hs : st'.seenFlags = st.seenFlags) (h : FlagInv st) : FlagInv st' := by
  rw [FlagInv, hf, hs]; exact h

/-- A flag whose name was already seen is dropped: `addFlag` is the identity. -/
theorem addFlag_seen (st : PHState) (f : Flag)
    (h : st.seenFlags.contains f.name = true) : addFlag st f = st := by
  rw [addFlag, if_pos h]

theorem addFlag_inv (st : PHState) (f : Flag) (h : FlagInv st) : FlagInv (addFlag st f) := by
  by_cases hc : st.seenFlags.contains f.name = true
  · rw [addFlag_seen st f hc]; exact h
  · obtain ⟨hnd, hiff⟩ := h
    have hnotseen : f.name ∉ st.seenFlags := by
      simpa using hc
    have hnotin : f.name ∉ st.result.flags.map Flag.name := fun hin =>
      hnotseen ((hiff f.name).mpr hin)
    have hnd' : ((st.result.flags ++ [f]).map Flag.name).Nodup := by
      rw [List.map_append]
      simp only [List.map_cons, List.map_nil]
      rw [List.nodup_append]
      exact ⟨hnd, List.nodup_singleton _, by simpa using hnotin⟩
    have hiff' : ∀ nm : Str, nm ∈ f.name :: st.seenFlags ↔
        nm ∈ (st.result.flags ++ [f]).map Flag.name := by
      intro nm
      rw [List.map_append]
      simp [hiff nm, or_comm]
    rw [addFlag, if_neg hc]
    split
    · exact ⟨hnd', hiff'⟩
    · exact ⟨hnd', hiff'⟩

theorem phAddSub_inv (st : PHState) (name : Str) (h : FlagInv st) :
    FlagInv (phAddSub st name) := by
  rw [phAddSub]
  split
  · exact flagKeys_eq_inv rfl rfl h
  · exact h

theorem phFlush_inv (st : PHState) (trimmed rawLine : Str) (h : FlagInv st) :
    FlagInv (phFlush st trimmed rawLine) := by
  rw [phFlush]
  cases hpf : st.pendingFlag with
  | none => exact h
  | some pf =>
      dsimp only
      by_cases htr : trimmed = []
      · rw [if_pos htr]; exact h
      · rw [if_neg htr]
        split <;> split
        · exact flagKeys_eq_inv rfl rfl h
        · exact flagKeys_eq_inv rfl rfl (addFlag_inv _ _ h)
        · exact flagKeys_eq_inv rfl rfl h
        · exact flagKeys_eq_inv rfl rfl (addFlag_inv _ _ h)

theorem phReset_inv (ord : List (Str × Str)) (st : PHState) (i : Nat)
    (rawLine trimmed lower : Str) (h : FlagInv st) :
    FlagInv (phReset ord st i rawLine trimmed lower) := by
  rw [phReset]
  split
  · split
    · exact flagKeys_eq_inv rfl rfl h
    · exact h
  · exact h

theorem phDescr_inv (st : PHState) (i : Nat) (trimmed lower : Str) (h : FlagInv st) :
    FlagInv (phDescr st i trimmed lower) := by
  rw [phDescr]
  split
  · exact flagKeys_eq_inv rfl rfl h
  · exact h

theorem phUsage_inv (st : PHState) (rawLine trimmed lower : Str) (h : FlagInv st) :
    FlagInv (phUsage st rawLine trimmed lower) := by
  rw [phUsage]
  split
  · exact flagKeys_eq_inv rfl rfl h
  · exact h

theorem phDocsURL_inv (st : PHState) (rawLine : Str) (h : FlagInv st) :
    FlagInv (phDocsURL st rawLine) := by
  rw [phDocsURL]
  split
  · dsimp only
    split
    · exact flagKeys_eq_inv rfl rfl h
    · exact h
  · exact h

theorem phSwitch_inv (st : PHState) (rawLine : Str) (h : FlagInv st) :
    FlagInv (phSwitch st rawLine) := by
  have hmid : FlagInv (match parseFlag rawLine with
      | some f => addFlag st f
      | none => st) := by
    split
    · exact addFlag_inv _ _ h
    · exact h
  rw [phSwitch]
  by_cases hA : st.sec = secFlags
  · rw [if_pos hA]
    split
    · exact flagKeys_eq_inv rfl rfl h
    · exact hmid
  · rw [if_neg hA]
    by_cases hB : st.sec = secCommands
    · rw [if_pos hB]
      split
      · exact phAddSub_inv _ _ h
      · split
        · exact phAddSub_inv _ _ h
        · exact h
    · rw [if_neg hB]
      by_cases hC : st.sec = secNone ∨ st.sec = secUsage
      · rw [if_pos hC]
        dsimp only
        split
        · split
          · exact phAddSub_inv _ _ hmid
          · exact hmid
        · exact hmid
      · rw [if_neg hC]
        exact h

theorem phBody_inv (ord : List (Str × Str)) (st : PHState) (i : Nat)
    (rawLine trimmed lower : Str) (h : FlagInv st) :
    FlagInv (phBody ord st i rawLine trimmed lower) :=
  phSwitch_inv _ _ (phDocsURL_inv _ _ (phUsage_inv _ _ _ _
    (phDescr_inv _ _ _ _ (phReset_inv ord st i rawLine trimmed lower h))))

theorem phStep_inv (ord : List (Str × Str)) (st : PHState) (i : Nat) (rawLine : Str)
    (h : FlagInv st) : FlagInv (phStep ord st i rawLine) := by
  rw [phStep]
  split
  · split
    · exact flagKeys_eq_inv rfl rfl (phFlush_inv _ _ _ h)
    · exact flagKeys_eq_inv rfl rfl (phFlush_inv _ _ _ h)
  · exact phBody_inv _ _ _ _ _ _ (phFlush_inv _ _ _ h)

theorem flagInv_init : FlagInv phInit := by
  constructor
  · simp [phInit]
  · intro nm; simp [phInit]

/-- Claim C6: within one parse the `Flags` list never holds two entries with
the same name, and a flag whose name is already recorded is dropped by
`addFlag`, so the first-parsed entry (with its fields) wins. -/
theorem c6_flag_dedup (ord : List (Str × Str)) (text : Str) :
    ((ParseHelpOutputOrd ord text).flags.map Flag.name).Nodup ∧
    (∀ (st : PHState) (f : Flag),
      st.seenFlags.contains f.name = true → addFlag st f = st) := by
  constructor
  · have hfold : ∀ (ls : List (Nat × Str)) (st : PHState), FlagInv st →
        FlagInv (ls.foldl (fun st p => phStep ord st p.1 p.2) st) := by
      intro ls
      induction ls with
      | nil => intro st h; exact h
      | cons p rest ih => intro st h; exact ih _ (phStep_inv ord st p.1 p.2 h)
    have hst : FlagInv ((splitLines (stripANSI text)).enum.foldl
        (fun st p => phStep ord st p.1 p.2) phInit) :=
      hfold _ phInit flagInv_init
    have hst2 : FlagInv (match ((splitLines (stripANSI text)).enum.foldl
          (fun st p => phStep ord st p.1 p.2) phInit).pendingFlag with
        | some pf => addFlag ((splitLines (stripANSI text)).enum.foldl
            (fun st p => phStep ord st p.1 p.2) phInit) pf
        | none => (splitLines (stripANSI text)).enum.foldl
            (fun st p => phStep ord st p.1 p.2) phInit) := by
      split
      · exact addFlag_inv _ _ hst
      · exact hst
    exact hst2.1
  · intro st f hc
    exact addFlag_seen st f hc

/-- Help text in which `--v` is matched both by the defensive scan before any
header and inside the named `Flags` section. -/
def c6Text : Str := "  --v  x\nFlags:\n  --v  y\n  --w  z".data

def c6St : PHState := { phInit with seenFlags := ["--a".data] }

def c6Flag : Flag := { name := "--a".data }

theorem c6_witness :
    ((ParseHelpOutputOrd sectionHeadersList c6Text).flags.map Flag.name).Nodup ∧
    addFlag c6St c6Flag = c6St :=
  ⟨(c6_flag_dedup sectionHeadersList c6Text).1,
   (c6_flag_dedup sectionHeadersList c6Text).2 c6St c6Flag (by decide)⟩

/-! ### Claim C4 -/

/-- The candidate string that `detectSection` derives from a raw line. -/
def lineCandidate (l : Str) : Str :=
  trimTrailing (trimSpace (toLowerStr (trimSpace l))) [':']

/-- Does every keyword-table entry whose prefix/suffix test hits `cand` carry
the same section? When this holds, the map iteration order cannot influence
`detectSection`'s fallback. -/
def fallbackAgrees (cand : Str) : Bool :=
  match (sectionHeadersList.filter
      (fun e => startsWith e.1 cand || endsWith e.1 cand)).map Prod.snd with
  | [] => true
  | x :: xs => xs.all (fun y => y == x)

/-- No line of the (ANSI-stripped) help text has an iteration-order-sensitive
section-header candidate. -/
def unambiguousHelp (text : Str) : Bool :=
  (splitLines (stripANSI text)).all (fun l => fallbackAgrees (lineCandidate l))

theorem fallbackAgrees_eq (cand : Str) (hagree : fallbackAgrees cand = true)
    {a b : Str × Str} (ha : a ∈ sectionHeadersList)
    (hb : b ∈ sectionHeadersList)
    (hpa : (startsWith a.1 cand || endsWith a.1 cand) = true)
    (hpb : (startsWith b.1 cand || endsWith b.1 cand) = true) : a.2 = b.2 := by
  rw [fallbackAgrees] at hagree
  have hma : a.2 ∈ (sectionHeadersList.filter
      (fun e => startsWith e.1 cand || endsWith e.1 cand)).map Prod.snd :=
    List.mem_map_of_mem _ (List.mem_filter.mpr ⟨ha, hpa⟩)
  have hmb : b.2 ∈ (sectionHeadersList.filter
      (fun e => startsWith e.1 cand || endsWith e.1 cand)).map Prod.snd :=
    List.mem_map_of_mem _ (List.mem_filter.mpr ⟨hb, hpb⟩)
  revert hagree hma hmb
  cases (sectionHeadersList.filter
      (fun e => startsWith e.1 cand || endsWith e.1 cand)).map Prod.snd with
  | nil => intro _ hma; exact absurd hma (List.not_mem_nil _)
  | cons x xs =>
      intro hagree hma hmb
      have hall : ∀ y ∈ xs, y = x := by
        intro y hy
        have := List.all_eq_true.mp hagree y hy
        exact eq_of_beq this
      have hax : a.2 = x := by
        rcases List.mem_cons.mp hma with h | h
        · exact h
        · exact hall _ h
      have hbx : b.2 = x := by
        rcases List.mem_cons.mp hmb with h | h
        · exact h
        · exact hall _ h
      rw [hax, hbx]

/-- On an order-insensitive candidate, `detectSection` gives the same answer
for every iteration order of the keyword map. -/
theorem detect_ord_eq (ord : List (Str × Str)) (hperm : ord.Perm sectionHeadersList)
    (lower : Str)
    (hagree : fallbackAgrees (trimTrailing (trimSpace lower) [':']) = true) :
    detectSectionOrd ord lower = detectSectionOrd sectionHeadersList lower := by
  rw [detectSectionOrd, detectSectionOrd]
  cases hex : sectionHeadersList.lookup (trimTrailing (trimSpace lower) [':']) with
  | some s => rfl
  | none =>
      dsimp only
      by_cases hlen : goByteLen (trimTrailing (trimSpace lower) [':']) ≤ 30
      · rw [if_pos hlen, if_pos hlen]
        cases hf : sectionHeadersList.find?
            (fun e => startsWith e.1 (trimTrailing (trimSpace lower) [':']) ||
              endsWith e.1 (trimTrailing (trimSpace lower) [':'])) with
        | none =>
            have hnone : ord.find?
                (fun e => startsWith e.1 (trimTrailing (trimSpace lower) [':']) ||
                  endsWith e.1 (trimTrailing (trimSpace lower) [':'])) = none := by
              rw [List.find?_eq_none] at hf ⊢
              intro x hx
              exact hf x (hperm.mem_iff.mp hx)
            rw [hnone]
        | some e =>
            have he : e ∈ sectionHeadersList := List.mem_of_find?_eq_some hf
            have hpe := List.find?_some hf
            have hsome : ∃ x ∈ ord, (startsWith x.1 (trimTrailing (trimSpace lower) [':']) ||
                endsWith x.1 (trimTrailing (trimSpace lower) [':'])) = true :=
              ⟨e, hperm.mem_iff.mpr he, hpe⟩
            obtain ⟨e', he'⟩ := Option.isSome_iff_exists.mp (List.find?_isSome.mpr hsome)
            rw [he']
            have he'mem : e' ∈ sectionHeadersList :=
              hperm.mem_iff.mp (List.mem_of_find?_eq_some he')
            have hpe' := List.find?_some he'
            exact fallbackAgrees_eq _ hagree he'mem he hpe' hpe
      · rw [if_neg hlen, if_neg hlen]

theorem phReset_congr (ord : List (Str × Str)) (st : PHState) (i : Nat)
    (rawLine trimmed lower : Str)
    (hdet : detectSectionOrd ord lower = detectSectionOrd sectionHeadersList lower) :
    phReset ord st i rawLine trimmed lower = phReset sectionHeadersList st i rawLine trimmed lower := by
  rw [phReset, phReset, hdet]

theorem phStep_congr (ord : List (Str × Str)) (st : PHState) (i : Nat) (rawLine : Str)
    (hdet : detectSectionOrd ord (toLowerStr (trimSpace rawLine)) =
      detectSectionOrd sectionHeadersList (toLowerStr (trimSpace rawLine))) :
    phStep ord st i rawLine = phStep sectionHeadersList st i rawLine := by
  rw [phStep, phStep, phBody, phBody, hdet,
    phReset_congr ord _ i rawLine (trimSpace rawLine) (toLowerStr (trimSpace rawLine)) hdet]

/-- Claim C4 (amended): `ParseHelpOutput` is pure, and it is deterministic up
to the iteration order of the Go keyword map in `detectSection`'s
prefix/suffix fallback: on texts none of whose lines can hit two keywords of
different sections, any two iteration orders give byte-identical `ParsedHelp`.
A line such as `"Usage options:"` (prefix `usage`, suffix `options`) makes the
output depend on that randomized order. -/
theorem c4_parse_deterministic (ord₁ ord₂ : List (Str × Str)) (text : Str)
    (h₁ : ord₁.Perm sectionHeadersList) (h₂ : ord₂.Perm sectionHeadersList)
    (hun : unambiguousHelp text = true) :
    ParseHelpOutputOrd ord₁ text = ParseHelpOutputOrd ord₂ text := by
  have hcanon : ∀ ord : List (Str × Str), ord.Perm sectionHeadersList →
      ParseHelpOutputOrd ord text = ParseHelpOutputOrd sectionHeadersList text := by
    intro ord hperm
    have hlines : ∀ l ∈ splitLines (stripANSI text),
        detectSectionOrd ord (toLowerStr (trimSpace l)) =
          detectSectionOrd sectionHeadersList (toLowerStr (trimSpace l)) := by
      intro l hl
      have := List.all_eq_true.mp hun l hl
      exact detect_ord_eq ord hperm (toLowerStr (trimSpace l)) this
    have hfold : ∀ (ls : List (Nat × Str)),
        (∀ p ∈ ls, detectSectionOrd ord (toLowerStr (trimSpace p.2)) =
          detectSectionOrd sectionHeadersList (toLowerStr (trimSpace p.2))) →
        ∀ st : PHState,
          ls.foldl (fun st p => phStep ord st p.1 p.2) st =
            ls.foldl (fun st p => phStep sectionHeadersList st p.1 p.2) st := by
      intro ls
      induction ls with
      | nil => intro _ st; rfl
      | cons p rest ih =>
          intro hps st
          rw [List.foldl_cons, List.foldl_cons,
            phStep_congr ord st p.1 p.2 (hps p (List.mem_cons_self p rest)),
            ih (fun q hq => hps q (List.mem_cons_of_mem p hq)) _]
    rw [ParseHelpOutputOrd, ParseHelpOutputOrd]
    rw [hfold ((splitLines (stripANSI text)).enum) ?henum phInit]
    case henum =>
      intro p hp
      apply hlines
      have : p.2 ∈ ((splitLines (stripANSI text)).enum).map Prod.snd :=
        List.mem_map_of_mem Prod.snd hp
      rwa [List.enum_map_snd] at this
  rw [hcanon ord₁ h₁, hcanon ord₂ h₂]

/-- A section-header line matching both the `usage` and the `options` keyword. -/
def c4Text : Str := "Usage options:\n  --alpha  a\n  --beta  b".data

/-- An alternative iteration order of the keyword map: the canonical list
rotated so that the `usage` entry comes first. -/
def c4OrdB : List (Str × Str) := sectionHeadersList.rotate 14

/-- Claim C4 counterexample: two iteration orders of the same keyword map —
both permutations of it, as Go's randomized map ranging produces — give
different `ParsedHelp` values on the same text. -/
theorem c4_counterexample :
    c4OrdB.Perm sectionHeadersList ∧
    ParseHelpOutputOrd sectionHeadersList c4Text ≠ ParseHelpOutputOrd c4OrdB c4Text :=
  ⟨List.rotate_perm sectionHeadersList 14, fun hcontra =>
    absurd (congrArg (fun p => p.sections.length) hcontra) (by decide)⟩

def c4wText : Str := "Flags:\n  --a  x".data

theorem c4_witness :
    unambiguousHelp c4wText = true ∧
    ParseHelpOutputOrd c4OrdB c4wText = ParseHelpOutputOrd sectionHeadersList c4wText :=
  ⟨by decide, c4_parse_deterministic c4OrdB sectionHeadersList c4wText
    (List.rotate_perm sectionHeadersList 14) (List.Perm.refl sectionHeadersList) (by decide)⟩

/-! ### Claim C7 -/

/-- `h₂` extends `h₁`: no pre-existing cell is touched, cells are only added. -/
def HeapExt (h₁ h₂ : Heap) : Prop :=
  h₁.length ≤ h₂.length ∧ ∀ i < h₁.length, h₂[i]? = h₁[i]?

theorem HeapExt.refl (h : Heap) : HeapExt h h := ⟨le_refl _, fun _ _ => rfl⟩

theorem HeapExt.trans {h₁ h₂ h₃ : Heap} (a : HeapExt h₁ h₂) (b : HeapExt h₂ h₃) :
    HeapExt h₁ h₃ :=
  ⟨le_trans a.1 b.1, fun i hi => (b.2 i (lt_of_lt_of_le hi a.1)).trans (a.2 i hi)⟩

theorem heapExt_append (h : Heap) (Δ : Heap) : HeapExt h (h ++ Δ) :=
  ⟨by simp, fun i hi => List.getElem?_append_left hi⟩

/-- All cells at index ≥ `n0` have children confined to `[n0, h.length)`:
the freshly-allocated region is closed under `Children`. -/
def FreshClosed (h : Heap) (n0 : Nat) : Prop :=
  ∀ j obj, n0 ≤ j → h[j]? = some obj → ∀ c ∈ obj.children, n0 ≤ c ∧ c < h.length

theorem mergeScalars_children (d s : NodeObj) : (mergeScalars d s).children = d.children := by
  rw [mergeScalars]
  split <;> split <;> rfl

/-- Specification of `cloneList`: the heap is only extended, the returned ids
are fresh, and every fresh cell's children point into the fresh region. -/
theorem cloneList_spec : ∀ (fuel : Nat) (h₁ : Heap) (ids : List Nat) (h₂ : Heap)
    (nids : List Nat), cloneList fuel h₁ ids = some (h₂, nids) →
    HeapExt h₁ h₂ ∧ (∀ nid ∈ nids, h₁.length ≤ nid ∧ nid < h₂.length) ∧
    (∀ j obj, h₁.length ≤ j → h₂[j]? = some obj →
      ∀ c ∈ obj.children, h₁.length ≤ c ∧ c < h₂.length) := by
  intro fuel
  induction fuel with
  | zero =>
      intro h₁ ids h₂ nids heq
      cases ids with
      | nil =>
          rw [cloneList] at heq
          cases heq
          refine ⟨HeapExt.refl _, by simp, ?_⟩
          intro j obj hj hobj _ _
          have hlt := (List.getElem?_eq_some_iff.mp hobj).1
          omega
      | cons i rest => rw [cloneList] at heq; cases heq
  | succ fuel ih =>
      intro h₁ ids h₂ nids heq
      cases ids with
      | nil =>
          rw [cloneList] at heq
          cases heq
          refine ⟨HeapExt.refl _, by simp, ?_⟩
          intro j obj hj hobj _ _
          have hlt := (List.getElem?_eq_some_iff.mp hobj).1
          omega
      | cons i rest =>
          rw [cloneList] at heq
          cases hobj : h₁[i]? with
          | none =>
              simp only [hobj] at heq
              exact Option.noConfusion heq
          | some obj =>
              simp only [hobj] at heq
              cases hrec1 : cloneList fuel h₁ obj.children with
              | none =>
                  simp only [hrec1] at heq
                  exact Option.noConfusion heq
              | some p1 =>
                  obtain ⟨hA, cids⟩ := p1
                  simp only [hrec1] at heq
                  cases hrec2 : cloneList fuel (hA ++ [{ obj with children := cids }]) rest with
                  | none =>
                      simp only [hrec2] at heq
                      exact Option.noConfusion heq
                  | some p2 =>
                      obtain ⟨hB, ris⟩ := p2
                      simp only [hrec2, Option.some.injEq, Prod.mk.injEq] at heq
                      obtain ⟨rfl, rfl⟩ := heq
                      obtain ⟨ext1, fresh1, closed1⟩ := ih h₁ obj.children hA cids hrec1
                      obtain ⟨ext2, fresh2, closed2⟩ :=
                        ih (hA ++ [{ obj with children := cids }]) rest hB ris hrec2
                      have extMid : HeapExt hA (hA ++ [{ obj with children := cids }]) :=
                        heapExt_append hA [{ obj with children := cids }]
                      have extAll : HeapExt h₁ hB := (ext1.trans extMid).trans ext2
                      have hlenMid : (hA ++ [{ obj with children := cids }]).length
                          = hA.length + 1 := by simp
                      have hlen1 : h₁.length ≤ hA.length := ext1.1
                      have hlen2 : hA.length + 1 ≤ hB.length := by
                        have := ext2.1
                        rwa [hlenMid] at this
                      refine ⟨extAll, ?_, ?_⟩
                      · intro nid hnid
                        rcases List.mem_cons.mp hnid with rfl | htail
                        · constructor
                          · exact ext1.1
                          · have : hA.length < (hA ++ [{ obj with children := cids }]).length := by
                              simp
                            omega
                        · have := fresh2 nid htail
                          constructor
                          · omega
                          · exact this.2
                      · intro j objj hj hobjj c hc
                        by_cases hjA : j < hA.length
                        · have hj2 : j < (hA ++ [{ obj with children := cids }]).length := by
                            simp; omega
                          have heq1 : hB[j]? = hA[j]? := by
                            rw [ext2.2 j hj2, List.getElem?_append_left hjA]
                          rw [heq1] at hobjj
                          have := closed1 j objj hj hobjj c hc
                          constructor
                          · exact this.1
                          · have := this.2
                            omega
                        · by_cases hjmid : j = hA.length
                          · subst hjmid
                            have hj2 : hA.length <
                                (hA ++ [{ obj with children := cids }]).length := by simp
                            have heq1 : hB[hA.length]? = some { obj with children := cids } := by
                              rw [ext2.2 _ hj2]
                              simp
                            rw [heq1] at hobjj
                            cases hobjj
                            have := fresh1 c hc
                            constructor
                            · exact this.1
                            · have h2 := this.2
                              omega
                          · have hjB : (hA ++ [{ obj with children := cids }]).length ≤ j := by
                              simp
                              omega
                            have := closed2 j objj hjB hobjj c hc
                            constructor
                            · omega
                            · exact this.2

/-- Destination cell of a merge task (the only cell the task may write). -/
def MTask.dst : MTask → Nat
  | .node d _ => d
  | .kids d _ => d

theorem freshClosed_set (h : Heap) (n0 dst : Nat) (obj : NodeObj)
    (_hdst : n0 ≤ dst) (hfc : FreshClosed h n0)
    (hch : ∀ c ∈ obj.children, n0 ≤ c ∧ c < h.length) :
    FreshClosed (h.set dst obj) n0 := by
  intro j o hj hjo c hc
  rw [List.length_set]
  by_cases hlt : dst < h.length
  · by_cases hdj : dst = j
    · subst hdj
      rw [List.getElem?_set_self hlt] at hjo
      cases hjo
      exact hch c hc
    · rw [List.getElem?_set_ne hdj] at hjo
      exact hfc j o hj hjo c hc
  · rw [List.set_eq_of_length_le (le_of_not_lt hlt)] at hjo
    exact hfc j o hj hjo c hc

theorem freshClosed_ext (h h' : Heap) (n0 : Nat) (hn : n0 ≤ h.length)
    (he : HeapExt h h') (hfc : FreshClosed h n0)
    (hnew : ∀ j obj, h.length ≤ j → h'[j]? = some obj →
      ∀ c ∈ obj.children, h.length ≤ c ∧ c < h'.length) :
    FreshClosed h' n0 := by
  intro j o hj hjo c hc
  by_cases hjold : j < h.length
  · rw [he.2 j hjold] at hjo
    have := hfc j o hj hjo c hc
    exact ⟨this.1, lt_of_lt_of_le this.2 he.1⟩
  · have := hnew j o (le_of_not_lt hjold) hjo c hc
    exact ⟨le_trans hn this.1, this.2⟩

/-- Frame property of the `mergeInto` task loop: with all destinations in the
fresh region `[n0, ·)` and that region closed under `Children`, the loop never
writes a cell below `n0`, only grows the heap, and keeps the region closed. -/
theorem mergeRun_frame (n0 : Nat) : ∀ (fuel : Nat) (h₁ : Heap) (ts : List MTask) (h₂ : Heap),
    n0 ≤ h₁.length →
    FreshClosed h₁ n0 →
    (∀ t ∈ ts, n0 ≤ t.dst ∧ t.dst < h₁.length) →
    mergeRun fuel h₁ ts = some h₂ →
    (∀ i < n0, h₂[i]? = h₁[i]?) ∧ h₁.length ≤ h₂.length ∧ FreshClosed h₂ n0 := by
  intro fuel
  induction fuel with
  | zero =>
      intro h₁ ts h₂ hn hfc hts heq
      cases ts with
      | nil =>
          rw [mergeRun] at heq
          cases heq
          exact ⟨fun _ _ => rfl, le_refl _, hfc⟩
      | cons t rest => rw [mergeRun] at heq; exact Option.noConfusion heq
  | succ fuel ih =>
      intro h₁ ts h₂ hn hfc hts heq
      cases ts with
      | nil =>
          rw [mergeRun] at heq
          cases heq
          exact ⟨fun _ _ => rfl, le_refl _, hfc⟩
      | cons t rest =>
          cases t with
          | node dst src =>
              rw [mergeRun] at heq
              obtain ⟨hdst0, hdstlt⟩ := hts (.node dst src) (List.mem_cons_self _ _)
              dsimp only [MTask.dst] at hdst0 hdstlt
              cases hd : h₁[dst]? with
              | none =>
                  simp only [hd] at heq
                  exact Option.noConfusion heq
              | some d =>
                  cases hs : h₁[src]? with
                  | none =>
                      simp only [hd, hs] at heq
                      exact Option.noConfusion heq
                  | some s =>
                      simp only [hd, hs] at heq
                      cases hs1 : (h₁.set dst (mergeScalars d s))[src]? with
                      | none =>
                          simp only [hs1] at heq
                          exact Option.noConfusion heq
                      | some s1 =>
                          simp only [hs1] at heq
                          have hset_below : ∀ i < n0,
                              (h₁.set dst (mergeScalars d s))[i]? = h₁[i]? := by
                            intro i hi
                            exact List.getElem?_set_ne (by omega)
                          have hset_len : (h₁.set dst (mergeScalars d s)).length = h₁.length :=
                            List.length_set h₁ dst _
                          have hfc' : FreshClosed (h₁.set dst (mergeScalars d s)) n0 := by
                            apply freshClosed_set h₁ n0 dst _ hdst0 hfc
                            rw [mergeScalars_children]
                            intro c hc
                            exact hfc dst d hdst0 hd c hc
                          have hts' : ∀ t ∈ MTask.kids dst s1.children :: rest,
                              n0 ≤ t.dst ∧ t.dst < (h₁.set dst (mergeScalars d s)).length := by
                            intro t ht
                            rw [hset_len]
                            rcases List.mem_cons.mp ht with rfl | ht
                            · exact ⟨hdst0, hdstlt⟩
                            · exact hts t (List.mem_cons_of_mem _ ht)
                          obtain ⟨hbelow, hlen, hfc2⟩ := ih _ _ _ (by omega) hfc' hts' heq
                          refine ⟨?_, ?_, hfc2⟩
                          · intro i hi
                            rw [hbelow i hi, hset_below i hi]
                          · omega
          | kids dst scs =>
              cases scs with
              | nil =>
                  rw [mergeRun] at heq
                  obtain ⟨hbelow, hlen, hfc2⟩ := ih _ _ _ hn hfc
                    (fun t ht => hts t (List.mem_cons_of_mem _ ht)) heq
                  exact ⟨hbelow, hlen, hfc2⟩
              | cons sc scs =>
                  rw [mergeRun] at heq
                  obtain ⟨hdst0, hdstlt⟩ := hts (.kids dst (sc :: scs)) (List.mem_cons_self _ _)
                  dsimp only [MTask.dst] at hdst0 hdstlt
                  cases hsc : h₁[sc]? with
                  | none =>
                      simp only [hsc] at heq
                      exact Option.noConfusion heq
                  | some scObj =>
                      cases hdo : h₁[dst]? with
                      | none =>
                          simp only [hsc, hdo] at heq
                          exact Option.noConfusion heq
                      | some dObj =>
                          simp only [hsc, hdo] at heq
                          cases hfind : findChildByName h₁ dObj.children scObj.name with
                          | some cid =>
                              simp only [hfind] at heq
                              have hcidmem : cid ∈ dObj.children := by
                                have := List.mem_of_find?_eq_some hfind
                                exact this
                              have hcid := hfc dst dObj hdst0 hdo cid hcidmem
                              have hts' : ∀ t ∈ MTask.node cid sc :: MTask.kids dst scs :: rest,
                                  n0 ≤ t.dst ∧ t.dst < h₁.length := by
                                intro t ht
                                rcases List.mem_cons.mp ht with rfl | ht
                                · exact hcid
                                · rcases List.mem_cons.mp ht with rfl | ht
                                  · exact ⟨hdst0, hdstlt⟩
                                  · exact hts t (List.mem_cons_of_mem _ ht)
                              exact ih _ _ _ hn hfc hts' heq
                          | none =>
                              simp only [hfind] at heq
                              cases hcl : cloneList fuel h₁ [sc] with
                              | none =>
                                  simp only [hcl] at heq
                                  exact Option.noConfusion heq
                              | some p =>
                                  obtain ⟨h2, nids⟩ := p
                                  cases nids with
                                  | nil =>
                                      simp only [hcl] at heq
                                      exact Option.noConfusion heq
                                  | cons nid nids' =>
                                      cases nids' with
                                      | cons a b =>
                                          simp only [hcl] at heq
                                          exact Option.noConfusion heq
                                      | nil =>
                                          simp only [hcl] at heq
                                          obtain ⟨ext, freshIds, closedNew⟩ :=
                                            cloneList_spec fuel h₁ [sc] h2 [nid] hcl
                                          obtain ⟨hnid0, hnidlt⟩ :=
                                            freshIds nid (List.mem_cons_self _ _)
                                          cases hdo2 : h2[dst]? with
                                          | none =>
                                              simp only [hdo2] at heq
                                              exact Option.noConfusion heq
                                          | some dObj2 =>
                                              simp only [hdo2] at heq
                                              have hfch2 : FreshClosed h2 n0 :=
                                                freshClosed_ext h₁ h2 n0 hn ext hfc closedNew
                                              have hch3 : ∀ c ∈ dObj2.children ++ [nid],
                                                  n0 ≤ c ∧ c < h2.length := by
                                                intro c hc
                                                rcases List.mem_append.mp hc with hc | hc
                                                · exact hfch2 dst dObj2 hdst0 hdo2 c hc
                                                · rcases List.mem_singleton.mp hc with rfl
                                                  exact ⟨by omega, hnidlt⟩
                                              have hfc3 : FreshClosed (h2.set dst
                                                  { dObj2 with children := dObj2.children ++ [nid] }) n0 :=
                                                freshClosed_set h2 n0 dst _ hdst0 hfch2 hch3
                                              have hlen3 : (h2.set dst
                                                  { dObj2 with children := dObj2.children ++ [nid] }).length
                                                  = h2.length := List.length_set _ _ _
                                              have hts' : ∀ t ∈ MTask.kids dst scs :: rest,
                                                  n0 ≤ t.dst ∧ t.dst < (h2.set dst
                                                    { dObj2 with children := dObj2.children ++ [nid] }).length := by
                                                intro t ht
                                                rw [hlen3]
                                                have hext := ext.1
                                                rcases List.mem_cons.mp ht with rfl | ht
                                                · dsimp only [MTask.dst]
                                                  exact ⟨hdst0, by omega⟩
                                                · have := hts t (List.mem_cons_of_mem _ ht)
                                                  exact ⟨this.1, by omega⟩
                                              obtain ⟨hbelow, hlen, hfc4⟩ := ih _ _ _
                                                (by have := ext.1; rw [hlen3]; omega) hfc3 hts' heq
                                              refine ⟨?_, ?_, hfc4⟩
                                              · intro i hi
                                                rw [hbelow i hi,
                                                  List.getElem?_set_ne (by omega : dst ≠ i),
                                                  ext.2 i (by omega)]
                                              · have := ext.1
                                                rw [hlen3] at hlen
                                                omega

/-- From a fresh root, reachability stays in the fresh region. -/
theorem reachable_ge (h : Heap) (n0 r : Nat) (hfc : FreshClosed h n0) (hr : n0 ≤ r) :
    ∀ j, Reachable h r j → n0 ≤ j := by
  intro j hreach
  induction hreach with
  | refl => exact hr
  | step hij obj hobj hc ih => exact (hfc _ obj ih hobj _ hc).1

/-- `FreshClosed` at the heap's own length holds vacuously. -/
theorem freshClosed_top (h : Heap) : FreshClosed h h.length := by
  intro j obj hj hobj
  have := (List.getElem?_eq_some_iff.mp hobj).1
  omega

/-- Claim C7: `Merge` never mutates its input trees. The result is built from
a deep copy of `trees[0]` with later trees unioned in and unmatched children
appended as clones, so after a successful `Merge` every pre-existing heap cell
is unchanged (in particular every input tree is intact) and every node
reachable from the result root is freshly allocated — the result shares no
node with any input. -/
theorem c7_merge_frame (fuel : Nat) (h : Heap) (trees : List Nat) (h' : Heap) (r : Nat)
    (hmerge : Merge fuel h trees = some (h', some r)) :
    (∀ i < h.length, h'[i]? = h[i]?) ∧ h.length ≤ r ∧
    (∀ j, Reachable h' r j → h.length ≤ j) := by
  cases trees with
  | nil =>
      rw [Merge] at hmerge
      simp at hmerge
  | cons r0 rest =>
      rw [Merge] at hmerge
      cases hcl : cloneList fuel h [r0] with
      | none =>
          simp only [hcl] at hmerge
          exact Option.noConfusion hmerge
      | some p =>
          obtain ⟨h1, nids⟩ := p
          cases nids with
          | nil =>
              simp only [hcl] at hmerge
              exact Option.noConfusion hmerge
          | cons rid nids' =>
              cases nids' with
              | cons a b =>
                  simp only [hcl] at hmerge
                  exact Option.noConfusion hmerge
              | nil =>
                  simp only [hcl] at hmerge
                  cases hmr : mergeRun fuel h1 (rest.map (fun t => MTask.node rid t)) with
                  | none =>
                      simp only [hmr] at hmerge
                      exact Option.noConfusion hmerge
                  | some h2 =>
                      simp only [hmr, Option.some.injEq, Prod.mk.injEq] at hmerge
                      obtain ⟨heqH, heqR⟩ := hmerge
                      subst heqH
                      subst heqR
                      obtain ⟨ext1, fresh1, closed1⟩ := cloneList_spec fuel h [r0] h1 [rid] hcl
                      obtain ⟨hrid0, hridlt⟩ := fresh1 rid (List.mem_cons_self _ _)
                      have hfc1 : FreshClosed h1 h.length :=
                        freshClosed_ext h h1 h.length (le_refl _) ext1 (freshClosed_top h) closed1
                      have hts : ∀ t ∈ rest.map (fun t => MTask.node rid t),
                          h.length ≤ t.dst ∧ t.dst < h1.length := by
                        intro t ht
                        obtain ⟨x, _, rfl⟩ := List.mem_map.mp ht
                        exact ⟨hrid0, hridlt⟩
                      obtain ⟨hbelow, hlen, hfc2⟩ :=
                        mergeRun_frame h.length fuel h1 _ h2 ext1.1 hfc1 hts hmr
                      refine ⟨?_, hrid0, ?_⟩
                      · intro i hi
                        rw [hbelow i hi, ext1.2 i hi]
                      · exact reachable_ge h2 h.length rid hfc2 hrid0

def c7ObjA : NodeObj :=
  { name := "git".data, fullPath := [], description := [], flags := [],
    positionals := [], children := [], helpText := [], discovered := true,
    virtualNode := false }

def c7ObjB : NodeObj :=
  { c7ObjA with description := "source control".data, flags := [{ name := "--v".data }] }

def c7Heap : Heap := [c7ObjA, c7ObjB]

def c7Merged : Heap :=
  [c7ObjA, c7ObjB,
   { c7ObjA with description := "source control".data, flags := [{ name := "--v".data }] }]

theorem c7_witness :
    (∀ i < c7Heap.length, c7Merged[i]? = c7Heap[i]?) ∧ c7Heap.length ≤ 2 ∧
    (∀ j, Reachable c7Merged 2 j → c7Heap.length ≤ j) :=
  c7_merge_frame 40 c7Heap [0, 1] c7Merged 2 (by decide)

end Treemand
